import Mathlib

/-!
Verification of the microphone-calibration core of the DroneAudioApp
repository (src/core/calibration.py, class MicrophoneCalibrator).

The embedding follows the source line by line:

* `align_signals` works purely on sample lists, so it is embedded over exact
  rationals (the float samples of the program are rationals) and is fully
  computable.
* The spectral pipeline (`analyze_frequency_response`,
  `apply_calibration_folder`, `apply_calibration_file`) uses the real-input
  FFT; it is embedded over the real and complex numbers with the discrete
  Fourier transform written as an explicit exponential sum, the standard
  idealization of the floating-point FFT.
* `save_calibration` / `load_calibration` serialise the calibration
  dictionary through JSON; the document is modelled as a JSON value tree
  (Python floats round-trip exactly through json.dump / json.load for finite
  values, so numbers are kept exact).
* Raised exceptions are modelled with `Option` / `Except`: a `none` or
  `.error` result is a raised exception, an `.ok`/`some` result is a normal
  return.
-/

namespace DroneAudio

/-! ## Signal alignment (align_signals), embedded over ℚ -/

/-- Entry of a sample list at a signed index, zero outside the valid range.
Out-of-range positions contribute nothing to a correlation sum, which is how
the full cross-correlation treats the non-overlapping part. -/
def refAtZ (l : List ℚ) (z : ℤ) : ℚ :=
  if 0 ≤ z then l.getD z.toNat 0 else 0

/-- Full cross-correlation, modelling scipy.signal.correlate(mic, ref, "full")
on 1-d arrays: output index j holds the sum over l of
mic[l] * ref[l - j + len(ref) - 1], for j from 0 to len(mic)+len(ref)-2.
The underlying np.correlate raises ValueError when either input is empty,
modelled by `none`. -/
def correlateFull (mic ref : List ℚ) : Option (List ℚ) :=
  if mic.isEmpty ∨ ref.isEmpty then none
  else some ((List.range (mic.length + ref.length - 1)).map (fun j : ℕ =>
    ((List.range mic.length).map (fun l : ℕ =>
      mic.getD l 0 * refAtZ ref ((l : ℤ) - (j : ℤ) + (ref.length : ℤ) - 1))).sum))

/-- Scanner behind `npArgmax`: current position, best index so far, best value
so far. A later equal value does not replace the current best, matching
np.argmax returning the first occurrence of the maximum. -/
def npArgmaxAux : List ℚ → ℕ → ℕ → ℚ → ℕ
  | [], _, best, _ => best
  | x :: xs, i, best, bv =>
      if bv < x then npArgmaxAux xs (i + 1) i x else npArgmaxAux xs (i + 1) best bv

/-- Index of the first occurrence of the maximum value, modelling np.argmax on
a nonempty 1-d array. The value on the empty list is irrelevant: np.argmax
rejects it, and the alignment code only reaches argmax with a nonempty
correlation. -/
def npArgmax : List ℚ → ℕ
  | [] => 0
  | x :: xs => npArgmaxAux xs 1 0 x

/-- Shift step of the alignment loop body: when the offset is positive drop
that many leading samples (the signal started late), otherwise left-pad
with abs(offset) zeros (the signal started early). -/
def shiftByOffset (offset : ℤ) (mic : List ℚ) : List ℚ :=
  if 0 < offset then mic.drop offset.toNat
  else List.replicate offset.natAbs 0 ++ mic

/-- Final trim-and-pad of the alignment loop body: cut to the reference
length n, then right-pad with zeros up to n. -/
def padTrim (n : ℕ) (l : List ℚ) : List ℚ :=
  l.take n ++ List.replicate (n - (l.take n).length) 0

/-- Loop body of MicrophoneCalibrator.align_signals for one microphone signal:
cross-correlate against the reference, set offset = argmax - len(ref), then
shift by the offset and trim or zero-pad to len(ref). Signals are 1-d here:
the source reduces a stereo input to its first channel before this
computation. -/
def alignOne (refSignal mic : List ℚ) : Option (List ℚ) :=
  (correlateFull mic refSignal).map (fun c =>
    padTrim refSignal.length
      (shiftByOffset ((npArgmax c : ℤ) - (refSignal.length : ℤ)) mic))

/-- Embedding of MicrophoneCalibrator.align_signals: align every input signal
against the reference, in order. `none` models the ValueError that
np.correlate raises inside the loop when the reference or the current input
signal is empty. -/
def align_signals (refSignal : List ℚ) (mics : List (List ℚ)) :
    Option (List (List ℚ)) :=
  mics.mapM (alignOne refSignal)

/-! ## Calibration store (save_calibration / load_calibration) -/

/-- JSON values as written and read by json.dump / json.load for the
calibration file: numbers (kept exact — finite Python floats round-trip
through their repr), arrays, and string-keyed objects in insertion order.
Constructors the calibration document does not use are omitted. -/
inductive JVal : Type
  | num : ℝ → JVal
  | arr : List JVal → JVal
  | obj : List (String × JVal) → JVal

/-- Numeric payload of a JSON value, none on a non-number. -/
def JVal.asNum : JVal → Option ℝ
  | .num q => some q
  | _ => none

/-- Numbers stored in a JSON array, none unless the value is an array of
numbers. -/
def JVal.asNumList : JVal → Option (List ℝ)
  | .arr l => l.mapM JVal.asNum
  | _ => none

/-- Rows of numbers stored in a JSON array of arrays, none on any other
shape. -/
def JVal.asNumListList : JVal → Option (List (List ℝ))
  | .arr l => l.mapM JVal.asNumList
  | _ => none

/-- Contents of MicrophoneCalibrator.calibration_data after a successful
analyze or load: the frequency bins and one correction-factor row per
calibrated microphone. -/
structure CalibrationData : Type where
  frequency_bins : List ℝ
  calibration_factors : List (List ℝ)

/-- Embedding of MicrophoneCalibrator.save_calibration: the JSON document that
json.dump writes for the calibration dictionary, keys in insertion order.
The file-system layer is modelled away; save yields the document itself. -/
def save_calibration (d : CalibrationData) : JVal :=
  .obj [("frequency_bins", .arr (d.frequency_bins.map JVal.num)),
        ("calibration_factors",
         .arr (d.calibration_factors.map (fun r => JVal.arr (r.map JVal.num))))]

/-- Embedding of MicrophoneCalibrator.load_calibration on an existing file:
json.load parses the document, and the two keys are interpreted exactly as
every later use of the stored dictionary reads them. A missing key or a
non-numeric entry makes the result unusable, modelled by none. -/
def load_calibration (j : JVal) : Option CalibrationData :=
  match j with
  | .obj fields => do
    let fb ← fields.lookup "frequency_bins"
    let cf ← fields.lookup "calibration_factors"
    let bins ← fb.asNumList
    let factors ← cf.asNumListList
    pure ⟨bins, factors⟩
  | _ => none

theorem mapM_asNum_map_num (l : List ℝ) :
    (l.map JVal.num).mapM JVal.asNum = some l := by
  induction l with
  | nil => rfl
  | cons a t ih =>
      rw [List.map_cons, List.mapM_cons, ih]
      rfl

theorem mapM_asNumList_map_arr (l : List (List ℝ)) :
    (l.map (fun r => JVal.arr (r.map JVal.num))).mapM JVal.asNumList = some l := by
  induction l with
  | nil => rfl
  | cons a t ih =>
      rw [List.map_cons, List.mapM_cons, ih]
      have h : JVal.asNumList (JVal.arr (a.map JVal.num)) = some a := mapM_asNum_map_num a
      rw [h]
      rfl

/-! ## Spectral core: the real-input FFT and its inverse, over ℝ and ℂ -/

/-- Complex exponential e^(2 pi i r), the twiddle factor of the DFT. -/
noncomputable def cexp2pi (r : ℝ) : ℂ :=
  Complex.exp (2 * Real.pi * Complex.I * r)

/-- Real-input FFT, modelling np.fft.rfft(x, n): the signal is zero-padded or
cropped to length n, and bin k (for k up to n/2) holds the sum over t < n of
x[t] e^(-2 pi i k t / n). numpy returns the n/2+1 non-negative-frequency
bins of the length-n transform. -/
noncomputable def rfft (n : ℕ) (x : List ℝ) : List ℂ :=
  (List.range (n / 2 + 1)).map (fun k =>
    ∑ t ∈ Finset.range n, (x.getD t 0 : ℂ) * cexp2pi (-(((k * t : ℕ) : ℝ) / n)))

/-- Hermitian extension of a half-spectrum to a full length-n spectrum, as the
inverse real FFT interprets its input: bins up to n/2 are read from X
(cropping or zero-padding X to n/2+1 entries), every later bin is the
complex conjugate of its mirror bin. -/
noncomputable def hermAt (X : List ℂ) (n : ℕ) (j : ℕ) : ℂ :=
  if j ≤ n / 2 then X.getD j 0 else star (X.getD (n - j) 0)

/-- Inverse real-input FFT, modelling np.fft.irfft(X, n): exactly n real
output samples, sample t being the real part of the inverse DFT of the
Hermitian extension of X. Taking the real part also discards the imaginary
parts of the DC (and, for even n, Nyquist) bins, as the c2r transform
does. -/
noncomputable def irfft (X : List ℂ) (n : ℕ) : List ℝ :=
  (List.range n).map (fun t =>
    (1 / (n : ℝ)) *
      (∑ j ∈ Finset.range n, hermAt X n j * cexp2pi (((j * t : ℕ) : ℝ) / n)).re)

/-- Embedding of np.resize on a 1-d array: cyclically tile, or crop, the array
to the requested length. -/
def npResize (a : List ℝ) (m : ℕ) : List ℝ :=
  (List.range m).map (fun i => a.getD (i % a.length) 0)

/-- Frequency bins of the real FFT, modelling np.fft.rfftfreq(n, 1/rate):
n/2+1 values, the k-th being k * rate / n. -/
noncomputable def rfftfreq (n : ℕ) (rate : ℝ) : List ℝ :=
  (List.range (n / 2 + 1)).map (fun k : ℕ => (k : ℝ) * rate / n)

/-! ## Analysis (analyze_frequency_response) -/

/-- Embedding of MicrophoneCalibrator.analyze_frequency_response with
reference index refIdx (the ref_mic_index constructor argument): magnitude
spectrum of the reference at its own length N, magnitude spectrum of every
recording at FFT length N, factor row = pointwise ratio reference over mic,
frequency bins rfftfreq(N, 1/sample_rate). Real division by zero is 0 in
this idealization where numpy would produce inf or nan under a runtime
warning. An out-of-range refIdx raises IndexError in the source; here the
reference defaults to the empty list and the theorems below restrict to
in-range indices. -/
noncomputable def analyze_frequency_response (refIdx : ℕ)
    (mic_recordings : List (List ℝ)) (sample_rate : ℝ) : CalibrationData :=
  let ref := mic_recordings.getD refIdx []
  let refFft := (rfft ref.length ref).map Complex.abs
  ⟨rfftfreq ref.length sample_rate,
   mic_recordings.map (fun mic =>
     List.zipWith (fun r m => r / m) refFft
       ((rfft ref.length mic).map Complex.abs))⟩

/-! ## Application of a calibration table -/

/-- Exceptions raised by the two calibration appliers, one constructor per
raise site of the source. -/
inductive CalError : Type
  | notLoaded : CalError
  | shapeMismatch : CalError
  | missingField : String → CalError
  | outOfRange : ℤ → CalError
  | indexError : CalError
deriving DecidableEq

/-- Shared per-channel correction body, written out twice in the source (in
apply_calibration_folder and apply_calibration_file): real FFT of the
recording at length len(frequency_bins)*2 - 1, np.resize of the factor row
to the FFT bin count, pointwise product, inverse real FFT back to the
recording's own length. -/
noncomputable def correctOne (bins : List ℝ) (factor : List ℝ) (x : List ℝ) :
    List ℝ :=
  let micFft := rfft (bins.length * 2 - 1) x
  let cf := npResize factor micFft.length
  irfft (List.zipWith (fun (a : ℂ) (c : ℝ) => a * (c : ℂ)) micFft cf) x.length

/-- Embedding of MicrophoneCalibrator.apply_calibration_folder: with no
calibration data loaded raise ValueError (notLoaded); otherwise correct the
i-th recording with factor row i. Python raises IndexError when there are
more recordings than factor rows, and the partial results of the earlier
loop iterations are discarded by that raise. The sample_rate argument is
accepted and ignored, as in the source. -/
noncomputable def apply_calibration_folder (cd : Option CalibrationData)
    (mic_recordings : List (List ℝ)) (sample_rate : ℝ) :
    Except CalError (List (List ℝ)) :=
  match cd with
  | none => .error .notLoaded
  | some d =>
    if d.calibration_factors.length < mic_recordings.length then
      .error .indexError
    else .ok ((List.range mic_recordings.length).map (fun i =>
      correctOne d.frequency_bins (d.calibration_factors.getD i [])
        (mic_recordings.getD i [])))

/-- Truncation toward zero of a rational number, modelling the Python int()
conversion applied to the mic_number field. -/
def ratTrunc (x : ℚ) : ℤ :=
  if 0 ≤ x then ⌊x⌋ else -⌊-x⌋

/-- Resolution of one channel-map entry to a factor-row index, modelling the
per-channel checks of apply_calibration_file: a missing mic_number raises
ValueError (missingField); otherwise the row index is int(mic_number) - 1,
and ValueError (outOfRange, reporting the one-based number) is raised when
it falls outside the factor table. -/
def resolveMic (nFac : ℕ) (entry : String × Option ℚ) : Except CalError ℤ :=
  match entry.2 with
  | none => .error (.missingField entry.1)
  | some x =>
    let m : ℤ := ratTrunc x - 1
    if m < 0 ∨ (nFac : ℤ) ≤ m then .error (.outOfRange (m + 1)) else .ok m

/-- Column idx of a samples-by-channels array stored as its list of rows,
modelling the slice mic_recordings[:, idx]. -/
def column (rows : List (List ℝ)) (idx : ℕ) : List ℝ :=
  rows.map (fun r => r.getD idx 0)

/-- Reassembly of a list of equal-length channel signals into rows of
per-sample values, modelling np.transpose(np.array(channels)) for channels
of length numRows. -/
def transposeSC (channels : List (List ℝ)) (numRows : ℕ) : List (List ℝ) :=
  (List.range numRows).map (fun s => channels.map (fun c => c.getD s 0))

/-- Embedding of MicrophoneCalibrator.apply_calibration_file on its
two-dimensional-ndarray branch (a list input raises Warning, any other
non-2d input and a non-dictionary mic_dict raise ValueError; those guards
are discharged by the types of this embedding). The recordings array is
samples by channels: the source compares recordings.shape[1] with the
number of mic_dict entries — shape[1] is the common row length, read here
from the first row — and reads channel idx as the column
recordings[:, idx]. mic_dict is the insertion-ordered list of channel
entries, each with its optional mic_number. A channel whose resolution
fails aborts the whole call, in loop order, before any output is returned;
on success the corrected channels are reassembled in samples-by-channels
orientation by the final np.transpose. -/
noncomputable def apply_calibration_file (cd : Option CalibrationData)
    (mic_recordings : List (List ℝ)) (sample_rate : ℝ)
    (mic_dict : List (String × Option ℚ)) : Except CalError (List (List ℝ)) :=
  match cd with
  | none => .error .notLoaded
  | some d =>
    if (mic_recordings.headD []).length ≠ mic_dict.length then
      .error .shapeMismatch
    else
      match mic_dict.mapM (resolveMic d.calibration_factors.length) with
      | .error e => .error e
      | .ok ms => .ok (transposeSC
          ((List.range mic_dict.length).map (fun idx =>
            correctOne d.frequency_bins
              (d.calibration_factors.getD (ms.getD idx 0).toNat [])
              (column mic_recordings idx)))
          mic_recordings.length)

/-! ## Generic list lemmas -/

theorem getD_map_range {α : Type} (n k : ℕ) (f : ℕ → α) (d : α) (hk : k < n) :
    ((List.range n).map f).getD k d = f k := by
  rw [List.getD_eq_getElem?_getD]
  simp [List.getElem?_map, List.getElem?_range hk]

theorem getD_map {α β : Type} (l : List α) (f : α → β) (k : ℕ) (d : α)
    (d' : β) (hk : k < l.length) : (l.map f).getD k d' = f (l.getD k d) := by
  rw [List.getD_eq_getElem _ _ (by simpa using hk), List.getD_eq_getElem _ _ hk,
    List.getElem_map]

theorem rfft_length (n : ℕ) (x : List ℝ) : (rfft n x).length = n / 2 + 1 := by
  simp [rfft]

theorem irfft_length (X : List ℂ) (n : ℕ) : (irfft X n).length = n := by
  simp [irfft]

theorem npResize_length (a : List ℝ) (m : ℕ) : (npResize a m).length = m := by
  simp [npResize]

theorem rfftfreq_length (n : ℕ) (rate : ℝ) :
    (rfftfreq n rate).length = n / 2 + 1 := by
  rw [rfftfreq, List.length_map, List.length_range]

theorem correctOne_length (bins factor x : List ℝ) :
    (correctOne bins factor x).length = x.length := by
  simp [correctOne, irfft_length]

theorem npResize_self (a : List ℝ) (m : ℕ) (h : a.length = m) :
    npResize a m = a := by
  subst h
  unfold npResize
  apply List.ext_getElem
  · rw [List.length_map, List.length_range]
  · intro i h1 h2
    simp only [List.getElem_map, List.getElem_range]
    rw [Nat.mod_eq_of_lt h2]
    exact List.getD_eq_getElem a 0 h2

/-- C2: the round trip load(save(table)) returns the saved table exactly. The
claim's finiteness hypothesis is vacuous here: the document's numbers are
modelled exactly (finite Python floats round-trip exactly through
json.dump followed by json.load), so no hypothesis remains. -/
theorem load_save_roundtrip (d : CalibrationData) :
    load_calibration (save_calibration d) = some d := by
  cases d with
  | mk bins factors =>
    have e1 : ("frequency_bins" == "frequency_bins") = true := by decide
    have e2 : ("calibration_factors" == "frequency_bins") = false := by decide
    have e3 : ("calibration_factors" == "calibration_factors") = true := by decide
    have h2 : JVal.asNumList (JVal.arr (bins.map JVal.num)) = some bins :=
      mapM_asNum_map_num bins
    have h3 : JVal.asNumListList
        (JVal.arr (factors.map (fun r => JVal.arr (r.map JVal.num)))) =
        some factors := mapM_asNumList_map_arr factors
    simp [save_calibration, load_calibration, List.lookup, e1, e2, e3, h2, h3]

/-- C3: on a set of aligned same-length signals, analysis produces one factor
row per input signal (reference included); row i is the list of pointwise
magnitude ratios |FFT_ref| / |FFT_mic_i| at FFT length N = len(reference);
the frequency bins are rfftfreq(N, 1/sample_rate), the floor(N/2)+1
non-negative-frequency bins; and every factor row is exactly as long as the
bin list. -/
theorem analyze_spec (refIdx : ℕ) (recs : List (List ℝ)) (rate : ℝ) (N : ℕ)
    (href : refIdx < recs.length) (hlen : ∀ s ∈ recs, s.length = N) :
    (analyze_frequency_response refIdx recs rate).frequency_bins =
        rfftfreq N rate ∧
    (analyze_frequency_response refIdx recs rate).frequency_bins.length =
        N / 2 + 1 ∧
    (analyze_frequency_response refIdx recs rate).calibration_factors.length =
        recs.length ∧
    (∀ i, i < recs.length →
      (analyze_frequency_response refIdx recs rate).calibration_factors.getD
          i [] =
        List.zipWith (fun r m => r / m)
          ((rfft N (recs.getD refIdx [])).map Complex.abs)
          ((rfft N (recs.getD i [])).map Complex.abs)) ∧
    (∀ row ∈ (analyze_frequency_response refIdx recs rate).calibration_factors,
      row.length =
        (analyze_frequency_response refIdx recs rate).frequency_bins.length) := by
  have hrefN : (recs.getD refIdx []).length = N := by
    rw [List.getD_eq_getElem _ _ href]
    exact hlen _ (List.getElem_mem href)
  refine ⟨?_, ?_, ?_, ?_, ?_⟩
  · rw [analyze_frequency_response]
    simp only [hrefN]
  · rw [analyze_frequency_response]
    simp only [hrefN, rfftfreq_length]
  · rw [analyze_frequency_response]
    simp
  · intro i hi
    rw [analyze_frequency_response]
    simp only [hrefN]
    rw [getD_map recs _ i [] [] hi]
  · intro row hrow
    rw [analyze_frequency_response] at hrow ⊢
    simp only [List.mem_map] at hrow
    obtain ⟨mic, _, hmic⟩ := hrow
    rw [← hmic]
    simp [rfft_length, rfftfreq_length, hrefN]

/-- Witness for C3 at the concrete two-signal input [[1],[2]] with reference
index 0 and unit sample rate. -/
theorem analyze_spec_witness :
    (0 < ([[(1 : ℝ)], [2]] : List (List ℝ)).length ∧
      ∀ s ∈ ([[(1 : ℝ)], [2]] : List (List ℝ)), s.length = 1) ∧
    (analyze_frequency_response 0 [[(1 : ℝ)], [2]] 1).calibration_factors.length =
      2 := by
  have hl : ∀ s ∈ ([[(1 : ℝ)], [2]] : List (List ℝ)), s.length = 1 := by
    intro s hs
    rcases List.mem_cons.mp hs with h | hs1
    · rw [h]; rfl
    rcases List.mem_cons.mp hs1 with h | hs2
    · rw [h]; rfl
    · cases hs2
  refine ⟨⟨by norm_num, hl⟩, ?_⟩
  have h := (analyze_spec 0 [[(1 : ℝ)], [2]] 1 1 (by norm_num) hl).2.2.1
  simpa using h

/-! ## Alignment claims -/

theorem padTrim_length (n : ℕ) (l : List ℚ) : (padTrim n l).length = n := by
  rw [padTrim, List.length_append, List.length_replicate, List.length_take]
  omega

theorem alignOne_length (refSignal mic out : List ℚ)
    (h : alignOne refSignal mic = some out) :
    out.length = refSignal.length := by
  rw [alignOne] at h
  cases hc : correlateFull mic refSignal with
  | none => rw [hc] at h; cases h
  | some c =>
    rw [hc, Option.map_some', Option.some.injEq] at h
    rw [← h, padTrim_length]

/-- C5: every signal the alignment returns has exactly the reference's length;
shorter intermediate results are zero-padded on the right and longer ones
are truncated. -/
theorem align_output_length (refSignal : List ℚ) (mics out : List (List ℚ))
    (h : align_signals refSignal mics = some out) :
    ∀ s ∈ out, s.length = refSignal.length := by
  induction mics generalizing out with
  | nil =>
    rw [align_signals] at h
    cases h
    intro s hs
    cases hs
  | cons a t ih =>
    rw [align_signals, List.mapM_cons] at h
    cases ha : alignOne refSignal a with
    | none => rw [ha] at h; cases h
    | some b =>
      rw [ha] at h
      cases ht : t.mapM (alignOne refSignal) with
      | none => rw [ht] at h; cases h
      | some bs =>
        rw [ht] at h
        simp at h
        subst h
        intro s hs
        rcases List.mem_cons.mp hs with h1 | h2
        · rw [h1]; exact alignOne_length refSignal a b ha
        · exact ih bs ht s h2

/-- Evaluation of the cross-correlation on the concrete delayed copy used by
the alignment claims. -/
theorem correlateFull_eval :
    correlateFull [0, 0, 3, 1] [3, 1, 0, 0] = some [0, 0, 0, 0, 3, 10, 3] := by
  have h7 : List.range 7 = [0, 1, 2, 3, 4, 5, 6] := rfl
  have h4 : List.range 4 = [0, 1, 2, 3] := rfl
  norm_num [correlateFull, refAtZ, h7, h4, Int.toNat]

/-- Evaluation of the argmax on that concrete correlation. -/
theorem npArgmax_eval : npArgmax [0, 0, 0, 0, 3, 10, 3] = 5 := by
  norm_num [npArgmax, npArgmaxAux]

/-- Full evaluation of align on the concrete delayed copy: the reference
shifted right by 2 comes back shifted right by 1. -/
theorem align_concrete_eval :
    align_signals [3, 1, 0, 0] [[0, 0, 3, 1]] = some [[0, 3, 1, 0]] := by
  rw [align_signals, List.mapM_cons]
  norm_num [alignOne, correlateFull_eval, npArgmax_eval,
    shiftByOffset, padTrim, Int.toNat, List.mapM_nil]
  rfl

/-- Witness for C5 at a concrete aligned call. -/
theorem align_output_length_witness :
    (align_signals [3, 1, 0, 0] [[0, 0, 3, 1]] = some [[0, 3, 1, 0]]) ∧
    ∀ s ∈ ([[0, 3, 1, 0]] : List (List ℚ)),
      s.length = ([3, 1, 0, 0] : List ℚ).length :=
  ⟨align_concrete_eval, fun s hs =>
    align_output_length [3, 1, 0, 0] [[0, 0, 3, 1]] [[0, 3, 1, 0]]
      align_concrete_eval s hs⟩

/-- C4 counterexample: the input [0, 0, 3, 1] is exactly the reference
[3, 1, 0, 0] delayed by k = 2 samples (left-padded with two zeros and
trimmed on the right), yet align returns [0, 3, 1, 0] — the reference
delayed by one sample — which differs from the reference already at index
0, not merely by truncation at the end; the computed offset was
argmax - len(ref) = 5 - 4 = 1 = k - 1 rather than k. -/
theorem align_recovery_counterexample :
    align_signals [3, 1, 0, 0] [[0, 0, 3, 1]] = some [[0, 3, 1, 0]] ∧
    ([0, 3, 1, 0] : List ℚ) ≠ [3, 1, 0, 0] ∧
    ([0, 3, 1, 0] : List ℚ).getD 0 0 ≠ ([3, 1, 0, 0] : List ℚ).getD 0 0 := by
  refine ⟨align_concrete_eval, by norm_num, by norm_num [List.getD]⟩

/-- C4 amended: align uses offset = argmax(correlation) - len(reference),
which is one less than the true lag argmax - (len(reference) - 1). Hence
for an input that is the reference delayed by k samples (1 ≤ k ≤ N,
left-padded with k zeros and trimmed to the reference length N), whenever
the full cross-correlation attains its first maximum at the true-lag
position k + N - 1, align computes offset = k - 1 and returns the
reference delayed by ONE sample — a leading zero, then the first N - k
reference samples, then k - 1 trailing zeros — rather than the reference
itself. -/
theorem align_recovery_offbyone (refSignal : List ℚ) (k : ℕ) (hk : 1 ≤ k)
    (hkN : k ≤ refSignal.length) (mic : List ℚ)
    (hmic : mic = (List.replicate k 0 ++ refSignal).take refSignal.length)
    (hargmax : npArgmax ((correlateFull mic refSignal).getD []) =
      k + refSignal.length - 1) :
    alignOne refSignal mic =
      some (0 :: refSignal.take (refSignal.length - k) ++
        List.replicate (k - 1) 0) := by
  have hN1 : 1 ≤ refSignal.length := le_trans hk hkN
  have hmic2 : mic =
      List.replicate k 0 ++ refSignal.take (refSignal.length - k) := by
    rw [hmic, List.take_append_eq_append_take, List.length_replicate,
      List.take_replicate, min_eq_right hkN]
  have hmiclen : mic.length = refSignal.length := by
    rw [hmic2, List.length_append, List.length_replicate, List.length_take]
    omega
  have hmicne : mic.isEmpty = false := by
    cases mic with
    | nil => simp at hmiclen; omega
    | cons a t => rfl
  have hrefne : refSignal.isEmpty = false := by
    cases refSignal with
    | nil => simp at hN1
    | cons a t => rfl
  have hcor : correlateFull mic refSignal =
      some ((List.range (mic.length + refSignal.length - 1)).map (fun j : ℕ =>
        ((List.range mic.length).map (fun l : ℕ =>
          mic.getD l 0 *
            refAtZ refSignal
              ((l : ℤ) - (j : ℤ) + (refSignal.length : ℤ) - 1))).sum)) := by
    rw [correlateFull, if_neg]
    simp [hmicne, hrefne]
  rw [hcor, Option.getD_some] at hargmax
  rw [alignOne, hcor, Option.map_some', hargmax]
  have hoff : ((k + refSignal.length - 1 : ℕ) : ℤ) - (refSignal.length : ℤ) =
      (k : ℤ) - 1 := by omega
  rw [hoff]
  by_cases h2 : 2 ≤ k
  · have hpos : (0 : ℤ) < (k : ℤ) - 1 := by omega
    rw [shiftByOffset, if_pos hpos]
    have htn : ((k : ℤ) - 1).toNat = k - 1 := by omega
    rw [htn, hmic2, List.drop_append_eq_append_drop, List.length_replicate,
      List.drop_replicate]
    have e1 : k - (k - 1) = 1 := by omega
    have e2 : k - 1 - k = 0 := by omega
    rw [e1, e2, List.drop_zero, List.replicate_one, List.singleton_append]
    have hlen : (0 :: refSignal.take (refSignal.length - k)).length =
        refSignal.length - k + 1 := by
      rw [List.length_cons, List.length_take]
      omega
    rw [padTrim, List.take_of_length_le (by rw [hlen]; omega)]
    rw [hlen]
    have e3 : refSignal.length - (refSignal.length - k + 1) = k - 1 := by omega
    rw [e3, List.cons_append]
  · have hk1 : k = 1 := by omega
    have hneg : ¬ ((0 : ℤ) < (k : ℤ) - 1) := by omega
    rw [shiftByOffset, if_neg hneg]
    have htn : ((k : ℤ) - 1).natAbs = 0 := by omega
    rw [htn, List.replicate_zero, List.nil_append]
    rw [hmic2, hk1, List.replicate_one, List.singleton_append]
    have hlen : (0 :: refSignal.take (refSignal.length - 1)).length =
        refSignal.length := by
      rw [List.length_cons, List.length_take]
      omega
    rw [padTrim, List.take_of_length_le (by rw [hlen])]
    rw [hlen, Nat.sub_self, List.replicate_zero, List.append_nil]

/-- Witness for the amended C4 at the concrete delayed copy used in the
counterexample. -/
theorem align_recovery_offbyone_witness :
    (1 ≤ 2 ∧ 2 ≤ ([3, 1, 0, 0] : List ℚ).length ∧
      ([0, 0, 3, 1] : List ℚ) =
        (List.replicate 2 0 ++ [3, 1, 0, 0]).take ([3, 1, 0, 0] : List ℚ).length ∧
      npArgmax ((correlateFull [0, 0, 3, 1] [3, 1, 0, 0]).getD []) =
        2 + ([3, 1, 0, 0] : List ℚ).length - 1) ∧
    alignOne [3, 1, 0, 0] [0, 0, 3, 1] =
      some (0 :: ([3, 1, 0, 0] : List ℚ).take (([3, 1, 0, 0] : List ℚ).length - 2) ++
        List.replicate 1 0) :=
  ⟨⟨by norm_num, by norm_num, rfl,
      by rw [correlateFull_eval, Option.getD_some, npArgmax_eval]; rfl⟩,
    align_recovery_offbyone [3, 1, 0, 0] 2 (by norm_num) (by norm_num)
      [0, 0, 3, 1] rfl
      (by rw [correlateFull_eval, Option.getD_some, npArgmax_eval]; rfl)⟩

/-- C9 amended: the source performs no explicit emptiness validation, but the
underlying correlation call raises ValueError — the invalid-input error —
whenever the reference or the current input signal is empty; so align fails
whenever some input signal is empty, or the reference is empty and at least
one input signal is present. (With an empty input list the loop body never
runs and align returns an empty list without error; see the
counterexample.) -/
theorem align_empty_fails (refSignal : List ℚ) (mics : List (List ℚ))
    (h : (∃ m ∈ mics, m = []) ∨ (refSignal = [] ∧ mics ≠ [])) :
    align_signals refSignal mics = none := by
  induction mics with
  | nil =>
    rcases h with ⟨m, hm, _⟩ | ⟨_, hne⟩
    · cases hm
    · exact absurd rfl hne
  | cons a t ih =>
    rw [align_signals, List.mapM_cons]
    by_cases hfail : alignOne refSignal a = none
    · rw [hfail]
      rfl
    · have hrefne : refSignal ≠ [] := by
        intro habs
        apply hfail
        rw [alignOne, correlateFull, if_pos (Or.inr (by rw [habs]; rfl))]
        rfl
      have hane : a ≠ [] := by
        intro habs
        apply hfail
        rw [alignOne, correlateFull, if_pos (Or.inl (by rw [habs]; rfl))]
        rfl
      rcases h with ⟨m, hm, hme⟩ | ⟨hre, _⟩
      · rcases List.mem_cons.mp hm with h1 | h2
        · exact absurd (h1 ▸ hme) hane
        · have ht : t.mapM (alignOne refSignal) = none := by
            have := ih (Or.inl ⟨m, h2, hme⟩)
            rwa [align_signals] at this
          cases hb : alignOne refSignal a with
          | none => exact absurd hb hfail
          | some b => rw [ht]; rfl
      · exact absurd hre hrefne

/-- Witness for the amended C9: an empty reference with one nonempty input
signal makes align fail. -/
theorem align_empty_fails_witness :
    ((∃ m ∈ ([[1]] : List (List ℚ)), m = []) ∨
      (([] : List ℚ) = [] ∧ ([[1]] : List (List ℚ)) ≠ [])) ∧
    align_signals ([] : List ℚ) [[1]] = none :=
  ⟨by decide, align_empty_fails [] [[1]] (by decide)⟩

/-- C9 counterexample: with an empty reference and an empty list of input
signals the loop body never runs, so align returns an empty result instead
of failing, although the reference signal is empty. -/
theorem align_empty_counterexample :
    align_signals ([] : List ℚ) [] = some [] ∧ (([] : List ℚ) = []) := by
  refine ⟨by decide, rfl⟩

/-! ## Twiddle-factor algebra and DFT orthogonality -/

theorem cexp2pi_add (a b : ℝ) : cexp2pi (a + b) = cexp2pi a * cexp2pi b := by
  rw [cexp2pi, cexp2pi, cexp2pi, ← Complex.exp_add]
  congr 1
  push_cast
  ring

theorem cexp2pi_zero : cexp2pi 0 = 1 := by
  simp [cexp2pi]

theorem cexp2pi_int (m : ℤ) : cexp2pi (m : ℝ) = 1 := by
  rw [cexp2pi]
  have h : 2 * (Real.pi : ℂ) * Complex.I * (((m : ℝ) : ℂ)) =
      (m : ℂ) * (2 * (Real.pi : ℂ) * Complex.I) := by
    push_cast
    ring
  rw [h]
  exact Complex.exp_int_mul_two_pi_mul_I m

theorem cexp2pi_nat_mul (t : ℕ) (a : ℝ) : cexp2pi (t * a) = cexp2pi a ^ t := by
  induction t with
  | zero => simp [cexp2pi_zero]
  | succ s ih =>
    have h : ((s + 1 : ℕ) : ℝ) * a = s * a + a := by push_cast; ring
    rw [h, cexp2pi_add, ih, pow_succ]

theorem conj_cexp2pi (r : ℝ) :
    (starRingEnd ℂ) (cexp2pi r) = cexp2pi (-r) := by
  rw [cexp2pi, cexp2pi, ← Complex.exp_conj]
  congr 1
  simp only [map_mul, Complex.conj_I, Complex.conj_ofReal, map_ofNat]
  push_cast
  ring

theorem cexp2pi_ne_one (n : ℕ) (hn : 0 < n) (m : ℤ) (hnd : ¬ (n : ℤ) ∣ m) :
    cexp2pi ((m : ℝ) / n) ≠ 1 := by
  intro h
  rw [cexp2pi, Complex.exp_eq_one_iff] at h
  obtain ⟨c, hc⟩ := h
  have hz : (2 * (Real.pi : ℂ) * Complex.I) ≠ 0 := by
    apply mul_ne_zero
    apply mul_ne_zero
    · norm_num
    · exact Complex.ofReal_ne_zero.mpr Real.pi_ne_zero
    · exact Complex.I_ne_zero
  have hc2 : (2 * (Real.pi : ℂ) * Complex.I) * (((m : ℝ) / n : ℝ) : ℂ) =
      (2 * (Real.pi : ℂ) * Complex.I) * (c : ℂ) := by
    rw [hc]
    ring
  have hc3 : (((m : ℝ) / n : ℝ) : ℂ) = (c : ℂ) := mul_left_cancel₀ hz hc2
  have hc4 : (m : ℝ) / n = (c : ℝ) := by
    have h5 : (((m : ℝ) / n : ℝ) : ℂ) = (((c : ℝ) : ℝ) : ℂ) := by
      rw [hc3]
      push_cast
      ring
    exact Complex.ofReal_injective h5
  apply hnd
  refine ⟨c, ?_⟩
  have hnR : (n : ℝ) ≠ 0 := by
    simp only [Nat.cast_ne_zero]
    omega
  have h6 : (m : ℝ) = (n : ℝ) * (c : ℝ) := by
    field_simp at hc4
    linarith [hc4]
  exact_mod_cast h6

theorem int_dvd_small (n m : ℤ) (hn : 0 < n) (hlow : -n < m) (hhigh : m < n)
    (hd : n ∣ m) : m = 0 := by
  rcases hd with ⟨c, hc⟩
  subst hc
  rcases lt_trichotomy c 0 with h | h | h
  · nlinarith
  · simp [h]
  · nlinarith

theorem int_dvd_two_window (n m : ℤ) (hn : 0 < n) (h0 : 0 ≤ m) (h2 : m < 2 * n)
    (hd : n ∣ m) : m = 0 ∨ m = n := by
  rcases hd with ⟨c, hc⟩
  subst hc
  have h1 : 0 ≤ c := by nlinarith
  have h3 : c < 2 := by nlinarith
  interval_cases c
  · left; ring
  · right; ring

theorem sum_cexp2pi_orth (n : ℕ) (hn : 0 < n) (m : ℤ) :
    ∑ t ∈ Finset.range n, cexp2pi (((m * t : ℤ) : ℝ) / n) =
      if (n : ℤ) ∣ m then (n : ℂ) else 0 := by
  have hsummand : ∀ t : ℕ,
      cexp2pi (((m * t : ℤ) : ℝ) / n) = cexp2pi ((m : ℝ) / n) ^ t := by
    intro t
    have h : ((m * t : ℤ) : ℝ) / n = t * ((m : ℝ) / n) := by push_cast; ring
    rw [h, cexp2pi_nat_mul]
  have hnR : (n : ℝ) ≠ 0 := by
    simp only [Nat.cast_ne_zero]
    omega
  by_cases hd : (n : ℤ) ∣ m
  · obtain ⟨q, hq⟩ := hd
    have h1 : (m : ℝ) / n = (q : ℝ) := by
      rw [hq]
      push_cast
      field_simp
    rw [if_pos ⟨q, hq⟩]
    calc ∑ t ∈ Finset.range n, cexp2pi (((m * t : ℤ) : ℝ) / n)
        = ∑ t ∈ Finset.range n, (1 : ℂ) ^ t := by
          refine Finset.sum_congr rfl (fun t _ => ?_)
          rw [hsummand t, h1, cexp2pi_int]
      _ = (n : ℂ) := by simp
  · rw [if_neg hd]
    have hne := cexp2pi_ne_one n hn m hd
    calc ∑ t ∈ Finset.range n, cexp2pi (((m * t : ℤ) : ℝ) / n)
        = ∑ t ∈ Finset.range n, cexp2pi ((m : ℝ) / n) ^ t :=
          Finset.sum_congr rfl (fun t _ => hsummand t)
      _ = (cexp2pi ((m : ℝ) / n) ^ n - 1) / (cexp2pi ((m : ℝ) / n) - 1) :=
          geom_sum_eq hne n
      _ = 0 := by
          rw [← cexp2pi_nat_mul]
          have h : (n : ℝ) * ((m : ℝ) / n) = ((m : ℤ) : ℝ) := by
            field_simp
          rw [h, cexp2pi_int]
          simp

/-! ## Inversion of the real FFT at odd transform length -/

/-- Inverse-DFT sum of the Hermitian extension at time t — the bracket inside
irfft. -/
noncomputable def dftHerm (Y : List ℂ) (n t : ℕ) : ℂ :=
  ∑ j ∈ Finset.range n, hermAt Y n j * cexp2pi (((j * t : ℕ) : ℝ) / n)

theorem irfft_getD_dftHerm (X : List ℂ) (n : ℕ) (t : ℕ) (ht : t < n) :
    (irfft X n).getD t 0 = (1 / (n : ℝ)) * (dftHerm X n t).re := by
  rw [irfft, dftHerm]
  exact getD_map_range _ _ _ _ ht

theorem rfft_getD (n : ℕ) (x : List ℝ) (k : ℕ) (hk : k < n / 2 + 1) :
    (rfft n x).getD k 0 =
      ∑ t ∈ Finset.range n, (x.getD t 0 : ℂ) *
        cexp2pi (-(((k * t : ℕ) : ℝ) / n)) := by
  rw [rfft]
  exact getD_map_range _ _ _ _ hk

theorem sum_dftHerm_twiddle (Y : List ℂ) (n k : ℕ) (hn : 0 < n) (hkn : k < n) :
    ∑ t ∈ Finset.range n, dftHerm Y n t * cexp2pi (-(((k * t : ℕ) : ℝ) / n)) =
      (n : ℂ) * hermAt Y n k := by
  have step1 : ∀ t ∈ Finset.range n,
      dftHerm Y n t * cexp2pi (-(((k * t : ℕ) : ℝ) / n)) =
        ∑ j ∈ Finset.range n,
          hermAt Y n j * cexp2pi (((((j : ℤ) - k) * t : ℤ) : ℝ) / n) := by
    intro t _
    rw [dftHerm, Finset.sum_mul]
    refine Finset.sum_congr rfl (fun j _ => ?_)
    rw [mul_assoc]
    congr 1
    rw [← cexp2pi_add]
    congr 1
    push_cast
    ring
  rw [Finset.sum_congr rfl step1, Finset.sum_comm]
  have step2 : ∀ j ∈ Finset.range n,
      ∑ t ∈ Finset.range n,
          hermAt Y n j * cexp2pi (((((j : ℤ) - k) * t : ℤ) : ℝ) / n) =
        if j = k then (n : ℂ) * hermAt Y n j else 0 := by
    intro j hj
    have hj' := Finset.mem_range.mp hj
    rw [← Finset.mul_sum, sum_cexp2pi_orth n hn ((j : ℤ) - k)]
    by_cases hjk : j = k
    · subst hjk
      rw [if_pos (by simp), if_pos rfl]
      ring
    · have hnd : ¬ (n : ℤ) ∣ ((j : ℤ) - k) := by
        intro hd
        have h0 : (j : ℤ) - k = 0 :=
          int_dvd_small n _ (by omega) (by omega) (by omega) hd
        exact hjk (by omega)
      rw [if_neg hnd, if_neg hjk, mul_zero]
  rw [Finset.sum_congr rfl step2,
    Finset.sum_ite_eq' (Finset.range n) k (fun j => (n : ℂ) * hermAt Y n j),
    if_pos (Finset.mem_range.mpr hkn)]

theorem sum_dftHerm_conj_twiddle (Y : List ℂ) (n k : ℕ) (hn : 0 < n)
    (hkn : k < n) :
    ∑ t ∈ Finset.range n,
        (starRingEnd ℂ) (dftHerm Y n t) * cexp2pi (-(((k * t : ℕ) : ℝ) / n)) =
      (n : ℂ) *
        (starRingEnd ℂ) (hermAt Y n (if k = 0 then 0 else n - k)) := by
  have step1 : ∀ t ∈ Finset.range n,
      (starRingEnd ℂ) (dftHerm Y n t) * cexp2pi (-(((k * t : ℕ) : ℝ) / n)) =
        ∑ j ∈ Finset.range n,
          (starRingEnd ℂ) (hermAt Y n j) *
            cexp2pi (((-((j : ℤ) + k) * t : ℤ) : ℝ) / n) := by
    intro t _
    rw [dftHerm, map_sum, Finset.sum_mul]
    refine Finset.sum_congr rfl (fun j _ => ?_)
    rw [map_mul, conj_cexp2pi, mul_assoc]
    congr 1
    rw [← cexp2pi_add]
    congr 1
    push_cast
    ring
  rw [Finset.sum_congr rfl step1, Finset.sum_comm]
  have step2 : ∀ j ∈ Finset.range n,
      ∑ t ∈ Finset.range n,
          (starRingEnd ℂ) (hermAt Y n j) *
            cexp2pi (((-((j : ℤ) + k) * t : ℤ) : ℝ) / n) =
        if j = (if k = 0 then 0 else n - k) then
          (n : ℂ) * (starRingEnd ℂ) (hermAt Y n j) else 0 := by
    intro j hj
    have hj' := Finset.mem_range.mp hj
    rw [← Finset.mul_sum, sum_cexp2pi_orth n hn (-((j : ℤ) + k))]
    by_cases hcase : j = (if k = 0 then 0 else n - k)
    · have hdvd : (n : ℤ) ∣ -((j : ℤ) + k) := by
        rw [dvd_neg]
        by_cases hk0 : k = 0
        · rw [if_pos hk0] at hcase
          refine ⟨0, by omega⟩
        · rw [if_neg hk0] at hcase
          refine ⟨1, by omega⟩
      rw [if_pos hdvd, if_pos hcase]
      ring
    · have hnd : ¬ (n : ℤ) ∣ -((j : ℤ) + k) := by
        intro hd
        rw [dvd_neg] at hd
        rcases int_dvd_two_window n _ (by omega) (by omega) (by omega) hd with
          h0 | h0
        · apply hcase
          have hj0 : j = 0 := by omega
          have hk0 : k = 0 := by omega
          rw [hj0, if_pos hk0]
        · apply hcase
          have hk0 : k ≠ 0 := by omega
          rw [if_neg hk0]
          omega
      rw [if_neg hnd, if_neg hcase, mul_zero]
  rw [Finset.sum_congr rfl step2,
    Finset.sum_ite_eq' (Finset.range n) (if k = 0 then 0 else n - k)
      (fun j => (n : ℂ) * (starRingEnd ℂ) (hermAt Y n j)),
    if_pos]
  by_cases hk0 : k = 0
  · rw [if_pos hk0]
    exact Finset.mem_range.mpr hn
  · rw [if_neg hk0]
    exact Finset.mem_range.mpr (by omega)

/-- Inversion of the real FFT at odd transform length n: taking the real FFT
of irfft(Y, n) returns Y at every bin, except that the DC bin keeps only its
real part (which the c2r transform ignores). -/
theorem rfft_irfft_odd (n : ℕ) (hodd : Odd n) (Y : List ℂ) (k : ℕ)
    (hk : k < n / 2 + 1) :
    (rfft n (irfft Y n)).getD k 0 =
      if k = 0 then (((Y.getD 0 0).re : ℝ) : ℂ) else Y.getD k 0 := by
  obtain ⟨a, ha⟩ := hodd
  have hn : 0 < n := by omega
  have hn2 : n / 2 = a := by omega
  have hkn : k < n := by omega
  have hnne : (n : ℂ) ≠ 0 := by
    simp only [ne_eq, Nat.cast_eq_zero]
    omega
  rw [rfft_getD n _ k hk]
  have step1 : ∀ t ∈ Finset.range n,
      (((irfft Y n).getD t 0 : ℝ) : ℂ) * cexp2pi (-(((k * t : ℕ) : ℝ) / n)) =
        (1 / (2 * (n : ℂ))) *
          (dftHerm Y n t * cexp2pi (-(((k * t : ℕ) : ℝ) / n)) +
           (starRingEnd ℂ) (dftHerm Y n t) *
             cexp2pi (-(((k * t : ℕ) : ℝ) / n))) := by
    intro t ht
    rw [irfft_getD_dftHerm Y n t (Finset.mem_range.mp ht)]
    have hre : (((dftHerm Y n t).re : ℝ) : ℂ) =
        (dftHerm Y n t + (starRingEnd ℂ) (dftHerm Y n t)) / 2 := by
      rw [Complex.add_conj]
      push_cast
      ring
    push_cast
    rw [hre]
    field_simp
    ring
  rw [Finset.sum_congr rfl step1, ← Finset.mul_sum, Finset.sum_add_distrib,
    sum_dftHerm_twiddle Y n k hn hkn, sum_dftHerm_conj_twiddle Y n k hn hkn]
  by_cases hk0 : k = 0
  · subst hk0
    rw [if_pos rfl, if_pos rfl]
    have hG0 : hermAt Y n 0 = Y.getD 0 0 := by
      rw [hermAt, if_pos (Nat.zero_le _)]
    rw [hG0]
    have hre : (((Y.getD 0 0).re : ℝ) : ℂ) =
        (Y.getD 0 0 + (starRingEnd ℂ) (Y.getD 0 0)) / 2 := by
      rw [Complex.add_conj]
      push_cast
      ring
    rw [hre]
    field_simp
    ring
  · rw [if_neg hk0, if_neg hk0]
    have hGk : hermAt Y n k = Y.getD k 0 := by
      rw [hermAt, if_pos (by omega)]
    have hGnk : hermAt Y n (n - k) = star (Y.getD k 0) := by
      rw [hermAt, if_neg (by omega)]
      congr 2
      omega
    rw [hGk, hGnk]
    have hconj : (starRingEnd ℂ) (star (Y.getD k 0)) = Y.getD k 0 :=
      star_star (Y.getD k 0)
    rw [hconj]
    field_simp
    ring

/-! ## Self-correction identity -/

theorem getD_zipWith {α β γ : Type} (f : α → β → γ) (l1 : List α) (l2 : List β)
    (k : ℕ) (d1 : α) (d2 : β) (d : γ) (h1 : k < l1.length)
    (h2 : k < l2.length) :
    (List.zipWith f l1 l2).getD k d = f (l1.getD k d1) (l2.getD k d2) := by
  rw [List.getD_eq_getElem _ _ (by rw [List.length_zipWith]; omega),
    List.getD_eq_getElem _ _ h1, List.getD_eq_getElem _ _ h2,
    List.getElem_zipWith]

theorem rfft_getD_zero (n : ℕ) (x : List ℝ) :
    (rfft n x).getD 0 0 = (((∑ t ∈ Finset.range n, x.getD t 0 : ℝ) : ℝ) : ℂ) := by
  rw [rfft_getD n x 0 (by omega)]
  have hterm : ∀ t ∈ Finset.range n,
      ((x.getD t 0 : ℝ) : ℂ) * cexp2pi (-(((0 * t : ℕ) : ℝ) / n)) =
        ((x.getD t 0 : ℝ) : ℂ) := by
    intro t _
    have h : -(((0 * t : ℕ) : ℝ) / n) = 0 := by norm_num
    rw [h, cexp2pi_zero, mul_one]
  rw [Finset.sum_congr rfl hterm]
  norm_cast

theorem correctOne_eq (bins factor x : List ℝ) :
    correctOne bins factor x =
      irfft (List.zipWith (fun (a : ℂ) (c : ℝ) => a * (c : ℂ))
        (rfft (bins.length * 2 - 1) x)
        (npResize factor ((rfft (bins.length * 2 - 1) x).length)))
        x.length := rfl

theorem apply_folder_ok (d : CalibrationData) (recs : List (List ℝ)) (rate : ℝ)
    (h : recs.length ≤ d.calibration_factors.length) :
    apply_calibration_folder (some d) recs rate =
      .ok ((List.range recs.length).map (fun i =>
        correctOne d.frequency_bins (d.calibration_factors.getD i [])
          (recs.getD i []))) := by
  rw [apply_calibration_folder, if_neg (by omega)]

/-- C1 amended: the identity holds when the common aligned length N is odd.
Applying the table built by analyze to the very sweep recordings it was
built from gives, for every microphone (reference included) and every
frequency bin at which that microphone's original spectrum magnitude is
nonzero, a corrected magnitude equal to the reference magnitude — exactly,
in the real-arithmetic idealization. For even N the applier's FFT length
len(bins)*2 - 1 = N + 1 differs from the analysis length N and the identity
fails; see the counterexample. -/
theorem selfcal_identity_odd (refIdx : ℕ) (recs : List (List ℝ)) (rate : ℝ)
    (N : ℕ) (hodd : Odd N) (href : refIdx < recs.length)
    (hlen : ∀ s ∈ recs, s.length = N) :
    ∃ out, apply_calibration_folder
        (some (analyze_frequency_response refIdx recs rate)) recs rate =
        Except.ok out ∧
      ∀ i, i < recs.length → ∀ k, k < N / 2 + 1 →
        Complex.abs ((rfft N (recs.getD i [])).getD k 0) ≠ 0 →
        Complex.abs ((rfft N (out.getD i [])).getD k 0) =
          Complex.abs ((rfft N (recs.getD refIdx [])).getD k 0) := by
  obtain ⟨a, ha⟩ := hodd
  have hrefN : (recs.getD refIdx []).length = N := by
    rw [List.getD_eq_getElem _ _ href]
    exact hlen _ (List.getElem_mem href)
  have hfactors : (analyze_frequency_response refIdx recs rate).calibration_factors =
      recs.map (fun mic =>
        List.zipWith (fun r m => r / m)
          ((rfft (recs.getD refIdx []).length (recs.getD refIdx [])).map
            Complex.abs)
          ((rfft (recs.getD refIdx []).length mic).map Complex.abs)) := rfl
  have hbins : (analyze_frequency_response refIdx recs rate).frequency_bins =
      rfftfreq (recs.getD refIdx []).length rate := rfl
  have hfl : (analyze_frequency_response refIdx recs rate).calibration_factors.length =
      recs.length := by
    rw [hfactors, List.length_map]
  have hbl : (analyze_frequency_response refIdx recs rate).frequency_bins.length =
      N / 2 + 1 := by
    rw [hbins, rfftfreq_length, hrefN]
  have hnn : (analyze_frequency_response refIdx recs rate).frequency_bins.length *
      2 - 1 = N := by
    rw [hbl]
    omega
  refine ⟨_, apply_folder_ok _ recs rate (by omega), ?_⟩
  intro i hi k hk hne
  have hxN : (recs.getD i []).length = N := by
    rw [List.getD_eq_getElem _ _ hi]
    exact hlen _ (List.getElem_mem hi)
  rw [getD_map_range recs.length i _ [] hi]
  have hrow : (analyze_frequency_response refIdx recs rate).calibration_factors.getD
      i [] =
      List.zipWith (fun r m => r / m)
        ((rfft N (recs.getD refIdx [])).map Complex.abs)
        ((rfft N (recs.getD i [])).map Complex.abs) := by
    rw [hfactors, getD_map recs _ i [] [] hi, hrefN]
  have hrowlen : ((analyze_frequency_response refIdx recs rate).calibration_factors.getD
      i []).length = N / 2 + 1 := by
    rw [hrow, List.length_zipWith, List.length_map, List.length_map,
      rfft_length, rfft_length]
    omega
  rw [correctOne_eq, hnn, hxN]
  have hresize : npResize
      ((analyze_frequency_response refIdx recs rate).calibration_factors.getD i [])
      ((rfft N (recs.getD i [])).length) =
      (analyze_frequency_response refIdx recs rate).calibration_factors.getD i [] := by
    apply npResize_self
    rw [hrowlen, rfft_length]
  rw [hresize]
  rw [rfft_irfft_odd N ⟨a, ha⟩ _ k hk]
  have hXlen : k < (rfft N (recs.getD i [])).length := by
    rw [rfft_length]
    omega
  have hYk : (List.zipWith (fun (a : ℂ) (c : ℝ) => a * (c : ℂ))
      (rfft N (recs.getD i []))
      ((analyze_frequency_response refIdx recs rate).calibration_factors.getD
        i [])).getD k 0 =
      (rfft N (recs.getD i [])).getD k 0 *
        ((((analyze_frequency_response refIdx recs rate).calibration_factors.getD
          i []).getD k 0 : ℝ) : ℂ) :=
    getD_zipWith _ _ _ k 0 0 0 hXlen (by rw [hrowlen]; omega)
  have hfk : ((analyze_frequency_response refIdx recs rate).calibration_factors.getD
      i []).getD k 0 =
      Complex.abs ((rfft N (recs.getD refIdx [])).getD k 0) /
        Complex.abs ((rfft N (recs.getD i [])).getD k 0) := by
    rw [hrow]
    rw [getD_zipWith _ _ _ k 0 0 0 (by rw [List.length_map, rfft_length]; omega)
      (by rw [List.length_map, rfft_length]; omega)]
    rw [getD_map _ _ k 0 0 (by rw [rfft_length]; omega),
      getD_map _ _ k 0 0 (by rw [rfft_length]; omega)]
  have hfnonneg : 0 ≤ ((analyze_frequency_response refIdx recs rate).calibration_factors.getD
      i []).getD k 0 := by
    rw [hfk]
    exact div_nonneg (Complex.abs.nonneg _) (Complex.abs.nonneg _)
  by_cases hk0 : k = 0
  · subst hk0
    rw [if_pos rfl]
    rw [hYk, hfk]
    rw [rfft_getD_zero N (recs.getD i [])]
    rw [rfft_getD_zero] at hne
    set s : ℝ := ∑ t ∈ Finset.range N, (recs.getD i []).getD t 0 with hs
    have habs : Complex.abs ((s : ℂ)) = |s| := Complex.abs_ofReal _
    rw [habs] at hne
    have hmul : ((s : ℂ) *
        (((Complex.abs ((rfft N (recs.getD refIdx [])).getD 0 0) /
          Complex.abs ((s : ℂ)) : ℝ)) : ℂ)) =
        (((s * (Complex.abs ((rfft N (recs.getD refIdx [])).getD 0 0) /
          Complex.abs ((s : ℂ)))) : ℝ) : ℂ) := by
      push_cast
      ring
    rw [hmul]
    rw [Complex.ofReal_re]
    rw [Complex.abs_ofReal]
    rw [habs, abs_mul, abs_div, abs_abs]
    have hra : |Complex.abs ((rfft N (recs.getD refIdx [])).getD 0 0)| =
        Complex.abs ((rfft N (recs.getD refIdx [])).getD 0 0) :=
      abs_of_nonneg (Complex.abs.nonneg _)
    rw [hra]
    field_simp
  · rw [if_neg hk0]
    rw [hYk, hfk]
    rw [map_mul]
    rw [Complex.abs_ofReal]
    have hpos : |Complex.abs ((rfft N (recs.getD refIdx [])).getD k 0) /
        Complex.abs ((rfft N (recs.getD i [])).getD k 0)| =
        Complex.abs ((rfft N (recs.getD refIdx [])).getD k 0) /
          Complex.abs ((rfft N (recs.getD i [])).getD k 0) := by
      apply abs_of_nonneg
      exact div_nonneg (Complex.abs.nonneg _) (Complex.abs.nonneg _)
    rw [hpos, mul_comm]
    exact div_mul_cancel₀ _ hne

/-! ## Concrete spectral evaluations for the even-length counterexample -/

theorem cexp2pi_neg_half : cexp2pi (-(1 / 2 : ℝ)) = -1 := by
  rw [cexp2pi]
  have h : 2 * (Real.pi : ℂ) * Complex.I * (((-(1 / 2 : ℝ)) : ℝ) : ℂ) =
      -((Real.pi : ℂ) * Complex.I) := by push_cast; ring
  rw [h, Complex.exp_neg, Complex.exp_pi_mul_I]
  norm_num

theorem cexp2pi_half : cexp2pi ((1 / 2 : ℝ)) = -1 := by
  rw [cexp2pi]
  have h : 2 * (Real.pi : ℂ) * Complex.I * (((1 / 2 : ℝ) : ℝ) : ℂ) =
      (Real.pi : ℂ) * Complex.I := by push_cast; ring
  rw [h, Complex.exp_pi_mul_I]

theorem cexp2pi_third_re : (cexp2pi (-(1 / 3 : ℝ))).re = -(1 / 2) := by
  rw [cexp2pi]
  have h : 2 * (Real.pi : ℂ) * Complex.I * (((-(1 / 3 : ℝ)) : ℝ) : ℂ) =
      ((-(2 * Real.pi / 3) : ℝ) : ℂ) * Complex.I := by push_cast; ring
  rw [h, Complex.exp_ofReal_mul_I_re]
  have h2 : -(2 * Real.pi / 3) = -(Real.pi - Real.pi / 3) := by ring
  rw [h2, Real.cos_neg, Real.cos_pi_sub, Real.cos_pi_div_three]

theorem rfft_two_a : rfft 2 [(1 : ℝ), 0] = [1, 1] := by
  rw [rfft]
  have h2 : List.range (2 / 2 + 1) = [0, 1] := rfl
  rw [h2]
  simp only [List.map_cons, List.map_nil]
  norm_num [Finset.sum_range_succ, cexp2pi_zero, cexp2pi_neg_half]

theorem rfft_two_b : rfft 2 [(0 : ℝ), 1] = [1, -1] := by
  rw [rfft]
  have h2 : List.range (2 / 2 + 1) = [0, 1] := rfl
  rw [h2]
  simp only [List.map_cons, List.map_nil]
  norm_num [Finset.sum_range_succ, cexp2pi_zero, cexp2pi_neg_half]

theorem rfft_two_c : rfft 2 [(1 / 4 : ℝ), 3 / 4] = [1, -(1 / 2)] := by
  rw [rfft]
  have h2 : List.range (2 / 2 + 1) = [0, 1] := rfl
  rw [h2]
  simp only [List.map_cons, List.map_nil]
  norm_num [Finset.sum_range_succ, cexp2pi_zero, cexp2pi_neg_half]

theorem rfft_three_b : rfft 3 [(0 : ℝ), 1] = [1, cexp2pi (-(1 / 3))] := by
  rw [rfft]
  have h2 : List.range (3 / 2 + 1) = [0, 1] := rfl
  rw [h2]
  simp only [List.map_cons, List.map_nil]
  norm_num [Finset.sum_range_succ, cexp2pi_zero]

theorem irfft_counterexample_eval :
    irfft [1, cexp2pi (-(1 / 3))] 2 = [1 / 4, 3 / 4] := by
  rw [irfft]
  have h2 : List.range 2 = [0, 1] := rfl
  rw [h2]
  simp only [List.map_cons, List.map_nil]
  norm_num [Finset.sum_range_succ, hermAt, cexp2pi_zero, cexp2pi_half,
    Complex.add_re, Complex.one_re, Complex.mul_re, Complex.one_im,
    cexp2pi_third_re]

/-- C1 counterexample: at the even aligned length N = 2, with reference
[1, 0] (index 0) and second microphone [0, 1], the applier computes its FFT
at length len(frequency_bins)*2 - 1 = 3 rather than the analysis length 2;
the corrected second signal comes out as [1/4, 3/4], whose magnitude at
bin 1 is 1/2 while the reference magnitude there is 1, although the second
microphone's original spectrum magnitude at bin 1 is 1, nonzero — so the
self-correction identity fails as stated. -/
theorem selfcal_counterexample :
    ∃ out, apply_calibration_folder
        (some (analyze_frequency_response 0 [[(1 : ℝ), 0], [0, 1]] 2))
        [[(1 : ℝ), 0], [0, 1]] 2 = Except.ok out ∧
      Complex.abs ((rfft 2 [(0 : ℝ), 1]).getD 1 0) ≠ 0 ∧
      Complex.abs ((rfft 2 (out.getD 1 [])).getD 1 0) ≠
        Complex.abs ((rfft 2 [(1 : ℝ), 0]).getD 1 0) := by
  have hrow : (analyze_frequency_response 0 [[(1 : ℝ), 0], [0, 1]] 2).calibration_factors.getD
      1 [] = [1, 1] := by
    have hfactors : (analyze_frequency_response 0 [[(1 : ℝ), 0], [0, 1]] 2).calibration_factors =
        [List.zipWith (fun r m => r / m)
          ((rfft 2 [(1 : ℝ), 0]).map Complex.abs)
          ((rfft 2 [(1 : ℝ), 0]).map Complex.abs),
         List.zipWith (fun r m => r / m)
          ((rfft 2 [(1 : ℝ), 0]).map Complex.abs)
          ((rfft 2 [(0 : ℝ), 1]).map Complex.abs)] := rfl
    rw [hfactors]
    have hgd : ∀ z : List ℝ, ([List.zipWith (fun r m => r / m)
        ((rfft 2 [(1 : ℝ), 0]).map Complex.abs)
        ((rfft 2 [(1 : ℝ), 0]).map Complex.abs), z] : List (List ℝ)).getD 1 [] =
        z := fun z => rfl
    rw [hgd]
    rw [rfft_two_a, rfft_two_b]
    norm_num [map_one]
  have hfl : (analyze_frequency_response 0 [[(1 : ℝ), 0], [0, 1]] 2).calibration_factors.length =
      2 := rfl
  have hbl : (analyze_frequency_response 0 [[(1 : ℝ), 0], [0, 1]] 2).frequency_bins.length =
      2 := rfl
  refine ⟨_, apply_folder_ok _ [[(1 : ℝ), 0], [0, 1]] 2 (by rw [hfl]; rfl),
    ?_, ?_⟩
  · rw [rfft_two_b]
    have h1 : ([1, -1] : List ℂ).getD 1 0 = -1 := rfl
    rw [h1]
    simp
  · have hgd1 : ((List.range ([[(1 : ℝ), 0], [0, 1]] : List (List ℝ)).length).map
        (fun i => correctOne
          (analyze_frequency_response 0 [[(1 : ℝ), 0], [0, 1]] 2).frequency_bins
          ((analyze_frequency_response 0 [[(1 : ℝ), 0], [0, 1]] 2).calibration_factors.getD i [])
          (([[(1 : ℝ), 0], [0, 1]] : List (List ℝ)).getD i []))).getD 1 [] =
        correctOne
          (analyze_frequency_response 0 [[(1 : ℝ), 0], [0, 1]] 2).frequency_bins
          ((analyze_frequency_response 0 [[(1 : ℝ), 0], [0, 1]] 2).calibration_factors.getD 1 [])
          ([(0 : ℝ), 1]) :=
      getD_map_range 2 1 _ [] (by omega)
    rw [hgd1, hrow]
    rw [correctOne_eq]
    rw [show (analyze_frequency_response 0 [[(1 : ℝ), 0], [0, 1]] 2).frequency_bins.length *
        2 - 1 = 3 from by rw [hbl]]
    rw [rfft_three_b]
    have hres : npResize [1, 1] (([1, cexp2pi (-(1 / 3))] : List ℂ).length) =
        [1, 1] := npResize_self _ _ rfl
    rw [hres]
    have hzip : List.zipWith (fun (a : ℂ) (c : ℝ) => a * (c : ℂ))
        [1, cexp2pi (-(1 / 3))] [1, 1] = [1, cexp2pi (-(1 / 3))] := by
      simp
    rw [hzip]
    have hlen2 : ([(0 : ℝ), 1] : List ℝ).length = 2 := rfl
    rw [hlen2, irfft_counterexample_eval, rfft_two_c, rfft_two_a]
    have h1 : ([1, -(1 / 2)] : List ℂ).getD 1 0 = -(1 / 2) := rfl
    have h2 : ([1, 1] : List ℂ).getD 1 0 = 1 := rfl
    rw [h1, h2]
    have habs : Complex.abs (-(1 / 2 : ℂ)) = 1 / 2 := by
      have h : (-(1 / 2 : ℂ)) = (((-(1 / 2) : ℝ)) : ℂ) := by push_cast; ring
      rw [h, Complex.abs_ofReal]
      norm_num
    rw [habs]
    simp

/-- Witness for the amended C1 at the concrete odd-length input
[[2], [1]] with reference index 0 and unit sample rate. -/
theorem selfcal_identity_odd_witness :
    (Odd 1 ∧ 0 < ([[(2 : ℝ)], [1]] : List (List ℝ)).length ∧
      ∀ s ∈ ([[(2 : ℝ)], [1]] : List (List ℝ)), s.length = 1) ∧
    (∃ out, apply_calibration_folder
        (some (analyze_frequency_response 0 [[(2 : ℝ)], [1]] 1))
        [[(2 : ℝ)], [1]] 1 = Except.ok out ∧
      ∀ i, i < ([[(2 : ℝ)], [1]] : List (List ℝ)).length → ∀ k, k < 1 / 2 + 1 →
        Complex.abs ((rfft 1 (([[(2 : ℝ)], [1]] : List (List ℝ)).getD i [])).getD
          k 0) ≠ 0 →
        Complex.abs ((rfft 1 (out.getD i [])).getD k 0) =
          Complex.abs ((rfft 1 (([[(2 : ℝ)], [1]] : List (List ℝ)).getD
            0 [])).getD k 0)) := by
  have hl : ∀ s ∈ ([[(2 : ℝ)], [1]] : List (List ℝ)), s.length = 1 := by
    intro s hs
    rcases List.mem_cons.mp hs with h | hs1
    · rw [h]; rfl
    rcases List.mem_cons.mp hs1 with h | hs2
    · rw [h]; rfl
    · cases hs2
  refine ⟨⟨⟨0, rfl⟩, by norm_num, hl⟩, ?_⟩
  exact selfcal_identity_odd 0 [[(2 : ℝ)], [1]] 1 1 ⟨0, rfl⟩ (by norm_num) hl

/-! ## Channel-map application: plumbing lemmas -/

theorem mapM_except_ok_length {α β ε : Type} (f : α → Except ε β) (l : List α)
    (out : List β) (h : l.mapM f = Except.ok out) : out.length = l.length := by
  induction l generalizing out with
  | nil =>
    rw [List.mapM_nil] at h
    cases h
    rfl
  | cons a t ih =>
    rw [List.mapM_cons] at h
    cases hfa : f a with
    | error e => rw [hfa] at h; cases h
    | ok b =>
      rw [hfa] at h
      cases hmt : t.mapM f with
      | error e => rw [hmt] at h; cases h
      | ok bs =>
        rw [hmt] at h
        have h2 : (Except.ok (b :: bs) : Except ε (List β)) = Except.ok out := h
        cases h2
        simp [ih bs hmt]

theorem mapM_except_ok_getD {α β ε : Type} (f : α → Except ε β) (l : List α)
    (out : List β) (h : l.mapM f = Except.ok out) (c : ℕ) (hc : c < l.length)
    (d : α) (d' : β) : f (l.getD c d) = Except.ok (out.getD c d') := by
  induction l generalizing out c with
  | nil => cases hc
  | cons a t ih =>
    rw [List.mapM_cons] at h
    cases hfa : f a with
    | error e => rw [hfa] at h; cases h
    | ok b =>
      rw [hfa] at h
      cases hmt : t.mapM f with
      | error e => rw [hmt] at h; cases h
      | ok bs =>
        rw [hmt] at h
        have h2 : (Except.ok (b :: bs) : Except ε (List β)) = Except.ok out := h
        cases h2
        cases c with
        | zero => simpa using hfa
        | succ c2 =>
          have hc2 : c2 < t.length := by
            simpa using hc
          simpa using ih bs hmt c2 hc2

theorem mapM_except_first_error {α β ε : Type} (f : α → Except ε β)
    (l : List α) (c : ℕ) (hc : c < l.length) (d : α) (e : ε)
    (hbad : f (l.getD c d) = Except.error e)
    (hprev : ∀ j, j < c → ∃ b, f (l.getD j d) = Except.ok b) :
    l.mapM f = Except.error e := by
  induction l generalizing c with
  | nil => cases hc
  | cons a t ih =>
    rw [List.mapM_cons]
    cases c with
    | zero =>
      have hfa : f a = Except.error e := by simpa using hbad
      rw [hfa]
      rfl
    | succ c2 =>
      obtain ⟨b, hb⟩ := hprev 0 (Nat.succ_pos c2)
      have hfa : f a = Except.ok b := by simpa using hb
      rw [hfa]
      have ht : t.mapM f = Except.error e := by
        apply ih c2 (by simpa using hc)
        · simpa using hbad
        · intro j hj
          have := hprev (j + 1) (by omega)
          simpa using this
      rw [ht]
      rfl

theorem apply_file_ok (d : CalibrationData) (rows : List (List ℝ)) (rate : ℝ)
    (micDict : List (String × Option ℚ)) (ms : List ℤ)
    (hshape : (rows.headD []).length = micDict.length)
    (hres : micDict.mapM (resolveMic d.calibration_factors.length) =
      Except.ok ms) :
    apply_calibration_file (some d) rows rate micDict =
      Except.ok (transposeSC ((List.range micDict.length).map (fun idx =>
        correctOne d.frequency_bins
          (d.calibration_factors.getD (ms.getD idx 0).toNat [])
          (column rows idx))) rows.length) := by
  rw [apply_calibration_file, if_neg (fun h => h hshape), hres]

theorem apply_file_error (d : CalibrationData) (rows : List (List ℝ))
    (rate : ℝ) (micDict : List (String × Option ℚ)) (e : CalError)
    (hshape : (rows.headD []).length = micDict.length)
    (hres : micDict.mapM (resolveMic d.calibration_factors.length) =
      Except.error e) :
    apply_calibration_file (some d) rows rate micDict = Except.error e := by
  rw [apply_calibration_file, if_neg (fun h => h hshape), hres]

theorem resolveMic_natCast (n : ℕ) (name : String) (i : ℕ) (h1 : 1 ≤ i)
    (h2 : i ≤ n) :
    resolveMic n (name, some (i : ℚ)) = Except.ok ((i : ℤ) - 1) := by
  rw [resolveMic]
  have htr : ratTrunc ((i : ℕ) : ℚ) = (i : ℤ) := by
    rw [ratTrunc, if_pos (by positivity)]
    exact Int.floor_natCast i
  simp only [htr]
  rw [if_neg (by omega)]

theorem map_range_getD_self (L : List ℝ) :
    (List.range L.length).map (fun s => L.getD s 0) = L := by
  apply List.ext_getElem
  · rw [List.length_map, List.length_range]
  · intro i h1 h2
    simp only [List.getElem_map, List.getElem_range]
    exact List.getD_eq_getElem L 0 h2

theorem column_transposeSC (channels : List (List ℝ)) (S : ℕ) (c : ℕ)
    (hc : c < channels.length)
    (hlen : (channels.getD c []).length = S) :
    column (transposeSC channels S) c = channels.getD c [] := by
  rw [column, transposeSC, List.map_map]
  have hstep : ∀ s : ℕ,
      ((fun r => List.getD r c 0) ∘ fun s => channels.map (fun c2 => c2.getD s 0)) s =
        (channels.getD c []).getD s 0 := by
    intro s
    simp only [Function.comp]
    exact getD_map channels _ c [] 0 hc
  calc (List.range S).map
        ((fun r => List.getD r c 0) ∘ fun s => channels.map (fun c2 => c2.getD s 0)) =
        (List.range S).map (fun s => (channels.getD c []).getD s 0) := by
          exact List.map_congr_left (fun s _ => hstep s)
    _ = channels.getD c [] := by
          rw [← hlen]
          exact map_range_getD_self _

theorem column_length (rows : List (List ℝ)) (idx : ℕ) :
    (column rows idx).length = rows.length := by
  rw [column, List.length_map]

/-! ## Small concrete spectral evaluations for channel-map claims -/

theorem rfft_one (x : List ℝ) : rfft 1 x = [((x.getD 0 0 : ℝ) : ℂ)] := by
  rw [rfft]
  have h1 : List.range (1 / 2 + 1) = [0] := rfl
  rw [h1]
  simp only [List.map_cons, List.map_nil]
  norm_num [Finset.sum_range_one, cexp2pi_zero]

theorem irfft_one (X : List ℂ) : irfft X 1 = [(X.getD 0 0).re] := by
  rw [irfft]
  have h1 : List.range 1 = [0] := rfl
  rw [h1]
  simp only [List.map_cons, List.map_nil]
  norm_num [Finset.sum_range_one, hermAt, cexp2pi_zero]

theorem correctOne_one_bin (b0 f0 : ℝ) (x : List ℝ) (hx : x.length = 1) :
    correctOne [b0] [f0] x = [x.getD 0 0 * f0] := by
  rw [correctOne_eq]
  have hb : ([b0] : List ℝ).length * 2 - 1 = 1 := rfl
  rw [hb, hx, rfft_one]
  have hres : npResize [f0] (([((x.getD 0 0 : ℝ) : ℂ)] : List ℂ).length) =
      [f0] := npResize_self _ _ rfl
  rw [hres]
  have hz : List.zipWith (fun (a : ℂ) (c : ℝ) => a * (c : ℂ))
      [((x.getD 0 0 : ℝ) : ℂ)] [f0] = [((x.getD 0 0 * f0 : ℝ) : ℂ)] := by
    simp only [List.zipWith_cons_cons, List.zipWith_nil_right]
    push_cast
    rfl
  rw [hz, irfft_one]
  norm_num

theorem rfft_three (x : List ℝ) :
    rfft 3 x = [((x.getD 0 0 + x.getD 1 0 + x.getD 2 0 : ℝ) : ℂ),
      ((x.getD 0 0 : ℝ) : ℂ) + ((x.getD 1 0 : ℝ) : ℂ) * cexp2pi (-(1 / 3)) +
        ((x.getD 2 0 : ℝ) : ℂ) * cexp2pi (-(2 / 3))] := by
  rw [rfft]
  have h2 : List.range (3 / 2 + 1) = [0, 1] := rfl
  rw [h2]
  simp only [List.map_cons, List.map_nil]
  norm_num [Finset.sum_range_succ, cexp2pi_zero]

theorem irfft_two (X : List ℂ) :
    irfft X 2 = [(1 / 2) * (X.getD 0 0 + X.getD 1 0).re,
      (1 / 2) * (X.getD 0 0 - X.getD 1 0).re] := by
  rw [irfft]
  have h2 : List.range 2 = [0, 1] := rfl
  rw [h2]
  simp only [List.map_cons, List.map_nil]
  norm_num [Finset.sum_range_succ, hermAt, cexp2pi_zero, cexp2pi_half,
    mul_neg_one, ← sub_eq_add_neg]

theorem correctOne_two_bins (b0 b1 : ℝ) (x : List ℝ) (hx : x.length = 2) :
    correctOne [b0, b1] [1, 1] x =
      [x.getD 0 0 + x.getD 1 0 / 4, 3 / 4 * x.getD 1 0] := by
  rw [correctOne_eq]
  have hb : ([b0, b1] : List ℝ).length * 2 - 1 = 3 := rfl
  rw [hb, hx, rfft_three]
  have hx2 : x.getD 2 0 = 0 := List.getD_eq_default _ _ (by omega)
  rw [hx2]
  have hres : npResize [1, 1]
      (([((x.getD 0 0 + x.getD 1 0 + 0 : ℝ) : ℂ),
        ((x.getD 0 0 : ℝ) : ℂ) + ((x.getD 1 0 : ℝ) : ℂ) * cexp2pi (-(1 / 3)) +
          ((0 : ℝ) : ℂ) * cexp2pi (-(2 / 3))] : List ℂ).length) = [1, 1] :=
    npResize_self _ _ rfl
  rw [hres]
  have hz : List.zipWith (fun (a : ℂ) (c : ℝ) => a * (c : ℂ))
      [((x.getD 0 0 + x.getD 1 0 + 0 : ℝ) : ℂ),
        ((x.getD 0 0 : ℝ) : ℂ) + ((x.getD 1 0 : ℝ) : ℂ) * cexp2pi (-(1 / 3)) +
          ((0 : ℝ) : ℂ) * cexp2pi (-(2 / 3))] [(1 : ℝ), 1] =
      [((x.getD 0 0 + x.getD 1 0 + 0 : ℝ) : ℂ),
        ((x.getD 0 0 : ℝ) : ℂ) + ((x.getD 1 0 : ℝ) : ℂ) * cexp2pi (-(1 / 3)) +
          ((0 : ℝ) : ℂ) * cexp2pi (-(2 / 3))] := by
    simp only [List.zipWith_cons_cons, List.zipWith_nil_right]
    norm_num
  rw [hz, irfft_two]
  have hg0 : (([((x.getD 0 0 + x.getD 1 0 + 0 : ℝ) : ℂ),
      ((x.getD 0 0 : ℝ) : ℂ) + ((x.getD 1 0 : ℝ) : ℂ) * cexp2pi (-(1 / 3)) +
        ((0 : ℝ) : ℂ) * cexp2pi (-(2 / 3))] : List ℂ).getD 0 0) =
      ((x.getD 0 0 + x.getD 1 0 + 0 : ℝ) : ℂ) := rfl
  have hg1 : (([((x.getD 0 0 + x.getD 1 0 + 0 : ℝ) : ℂ),
      ((x.getD 0 0 : ℝ) : ℂ) + ((x.getD 1 0 : ℝ) : ℂ) * cexp2pi (-(1 / 3)) +
        ((0 : ℝ) : ℂ) * cexp2pi (-(2 / 3))] : List ℂ).getD 1 0) =
      ((x.getD 0 0 : ℝ) : ℂ) + ((x.getD 1 0 : ℝ) : ℂ) * cexp2pi (-(1 / 3)) +
        ((0 : ℝ) : ℂ) * cexp2pi (-(2 / 3)) := rfl
  rw [hg0, hg1]
  norm_num [Complex.add_re, Complex.sub_re, Complex.mul_re, Complex.ofReal_re,
    Complex.ofReal_im, cexp2pi_third_re]
  constructor <;> ring

theorem ratTrunc_natCast (i : ℕ) : ratTrunc ((i : ℕ) : ℚ) = (i : ℤ) := by
  rw [ratTrunc, if_pos (by positivity)]
  exact Int.floor_natCast i

theorem resolveMic_ok_value (n : ℕ) (entry : String × Option ℚ) (m : ℤ)
    (x : ℚ) (hx : entry.2 = some x) (h : resolveMic n entry = Except.ok m) :
    m = ratTrunc x - 1 := by
  simp only [resolveMic, hx] at h
  by_cases hg : ratTrunc x - 1 < 0 ∨ (n : ℤ) ≤ ratTrunc x - 1
  · rw [if_pos hg] at h
    cases h
  · rw [if_neg hg] at h
    cases h
    rfl

/-- C6: a channel whose map entry carries mic_number = i is corrected with
the same factor row — and therefore yields the same corrected samples — as
apply_calibration_folder produces at positional index i - 1, whenever the
folder call is given that channel's signal at position i - 1. -/
theorem channel_map_equiv (d : CalibrationData) (rows recs : List (List ℝ))
    (rate : ℝ) (micDict : List (String × Option ℚ)) (c i : ℕ)
    (outF outP : List (List ℝ))
    (hc : c < micDict.length)
    (hmic : (micDict.getD c ("", none)).2 = some ((i : ℕ) : ℚ))
    (h1 : 1 ≤ i)
    (hrec : recs.getD (i - 1) [] = column rows c)
    (hil : i - 1 < recs.length)
    (hF : apply_calibration_file (some d) rows rate micDict = Except.ok outF)
    (hP : apply_calibration_folder (some d) recs rate = Except.ok outP) :
    column outF c = outP.getD (i - 1) [] := by
  rw [apply_calibration_folder] at hP
  by_cases hg : d.calibration_factors.length < recs.length
  · rw [if_pos hg] at hP
    cases hP
  rw [if_neg hg] at hP
  have hP2 : ((List.range recs.length).map (fun j =>
      correctOne d.frequency_bins (d.calibration_factors.getD j [])
        (recs.getD j []))) = outP := by
    cases hP
    rfl
  rw [apply_calibration_file] at hF
  by_cases hs : (rows.headD []).length ≠ micDict.length
  · rw [if_pos hs] at hF
    cases hF
  rw [if_neg hs] at hF
  cases hres : micDict.mapM (resolveMic d.calibration_factors.length) with
  | error e =>
    rw [hres] at hF
    cases hF
  | ok ms =>
    rw [hres] at hF
    have hF2 : transposeSC ((List.range micDict.length).map (fun idx =>
        correctOne d.frequency_bins
          (d.calibration_factors.getD (ms.getD idx 0).toNat [])
          (column rows idx))) rows.length = outF := by
      cases hF
      rfl
    have hmc : resolveMic d.calibration_factors.length
        (micDict.getD c ("", none)) = Except.ok (ms.getD c 0) :=
      mapM_except_ok_getD _ micDict ms hres c hc ("", none) 0
    have hmsc : ms.getD c 0 = (i : ℤ) - 1 := by
      have h2 := resolveMic_ok_value d.calibration_factors.length _
        (ms.getD c 0) _ hmic hmc
      rw [h2, ratTrunc_natCast]
    have htn : (ms.getD c 0).toNat = i - 1 := by
      rw [hmsc]
      omega
    rw [← hF2]
    have hcc : c < ((List.range micDict.length).map (fun idx =>
        correctOne d.frequency_bins
          (d.calibration_factors.getD (ms.getD idx 0).toNat [])
          (column rows idx))).length := by
      rw [List.length_map, List.length_range]
      exact hc
    rw [column_transposeSC _ rows.length c hcc
      (by rw [getD_map_range _ c _ [] hc, correctOne_length, column_length])]
    rw [getD_map_range _ c _ [] hc, htn, ← hP2,
      getD_map_range _ (i - 1) _ [] hil, hrec]

/-- Witness for C6 on a one-channel, one-sample recording with mic number 1
and a single-row correction table. -/
theorem channel_map_equiv_witness :
    (([("channel_1", some ((1 : ℕ) : ℚ))] :
        List (String × Option ℚ)).getD 0 ("", none)).2 = some ((1 : ℕ) : ℚ) ∧
    (([[(5 : ℝ)]] : List (List ℝ)).getD 0 [] = column [[(5 : ℝ)]] 0) ∧
    apply_calibration_file (some ⟨[0], [[1]]⟩) [[(5 : ℝ)]] 1
      [("channel_1", some ((1 : ℕ) : ℚ))] = Except.ok [[(5 : ℝ)]] ∧
    apply_calibration_folder (some ⟨[0], [[1]]⟩) [[(5 : ℝ)]] 1 =
      Except.ok [[(5 : ℝ)]] ∧
    column ([[(5 : ℝ)]] : List (List ℝ)) 0 =
      ([[(5 : ℝ)]] : List (List ℝ)).getD 0 [] := by
  have hresolve : resolveMic 1 ("channel_1", some ((1 : ℕ) : ℚ)) =
      Except.ok 0 := by
    have h := resolveMic_natCast 1 "channel_1" 1 (le_refl 1) (le_refl 1)
    simpa using h
  have hres : ([("channel_1", some ((1 : ℕ) : ℚ))] :
      List (String × Option ℚ)).mapM (resolveMic 1) = Except.ok [0] := by
    rw [List.mapM_cons, hresolve, List.mapM_nil]
    rfl
  have hcorr : correctOne [(0 : ℝ)] [(1 : ℝ)] [(5 : ℝ)] = [(5 : ℝ)] := by
    rw [correctOne_one_bin 0 1 [(5 : ℝ)] rfl]
    norm_num
  have hF : apply_calibration_file (some ⟨[0], [[1]]⟩) [[(5 : ℝ)]] 1
      [("channel_1", some ((1 : ℕ) : ℚ))] = Except.ok [[(5 : ℝ)]] := by
    rw [apply_file_ok ⟨[0], [[1]]⟩ [[(5 : ℝ)]] 1 _ [0] rfl hres]
    have h1 : ((List.range 1).map (fun idx =>
        correctOne [(0 : ℝ)] ([[(1 : ℝ)]].getD (([(0 : ℤ)].getD idx 0).toNat) [])
          (column [[(5 : ℝ)]] idx))) =
        [correctOne [(0 : ℝ)] [(1 : ℝ)] [(5 : ℝ)]] := rfl
    rw [show (([("channel_1", some ((1 : ℕ) : ℚ))] :
        List (String × Option ℚ)).length) = 1 from rfl]
    rw [h1, hcorr]
    rfl
  have hP : apply_calibration_folder (some ⟨[0], [[1]]⟩) [[(5 : ℝ)]] 1 =
      Except.ok [[(5 : ℝ)]] := by
    rw [apply_folder_ok ⟨[0], [[1]]⟩ [[(5 : ℝ)]] 1 (by norm_num)]
    have h1 : ((List.range ([[(5 : ℝ)]] : List (List ℝ)).length).map (fun j =>
        correctOne [(0 : ℝ)] ([[(1 : ℝ)]].getD j []) ([[(5 : ℝ)]].getD j []))) =
        [correctOne [(0 : ℝ)] [(1 : ℝ)] [(5 : ℝ)]] := rfl
    rw [h1, hcorr]
  refine ⟨rfl, rfl, hF, hP, ?_⟩
  exact (channel_map_equiv ⟨[0], [[1]]⟩ [[(5 : ℝ)]] [[(5 : ℝ)]] 1
    [("channel_1", some ((1 : ℕ) : ℚ))] 0 1 [[(5 : ℝ)]] [[(5 : ℝ)]]
    (by norm_num) rfl (le_refl 1) rfl (by norm_num) hF hP)

/-- C7 amended: the recordings array accepted by apply_calibration_file is
indexed [sample][channel] — shape[1], the per-row length, must equal the
number of channel-map entries — and the returned array is indexed the same
way with exactly the input's shape: one row per input sample and one entry
per channel in each row; column c of the output (channel c's corrected
series) is the spectral correction of column c of the input with the factor
row its map entry resolves to. -/
theorem apply_file_shape (d : CalibrationData) (rows : List (List ℝ))
    (rate : ℝ) (micDict : List (String × Option ℚ)) (ms : List ℤ)
    (hshape : (rows.headD []).length = micDict.length)
    (huni : ∀ r ∈ rows, r.length = micDict.length)
    (hres : micDict.mapM (resolveMic d.calibration_factors.length) =
      Except.ok ms) :
    ∃ out, apply_calibration_file (some d) rows rate micDict = Except.ok out ∧
      out.length = rows.length ∧
      (∀ r ∈ out, r.length = micDict.length) ∧
      ∀ c, c < micDict.length →
        column out c = correctOne d.frequency_bins
          (d.calibration_factors.getD (ms.getD c 0).toNat [])
          (column rows c) := by
  refine ⟨_, apply_file_ok d rows rate micDict ms hshape hres, ?_, ?_, ?_⟩
  · rw [transposeSC, List.length_map, List.length_range]
  · intro r hr
    rw [transposeSC] at hr
    simp only [List.mem_map] at hr
    obtain ⟨s, _, hs⟩ := hr
    rw [← hs, List.length_map, List.length_map, List.length_range]
  · intro c hcc
    have hcl : c < ((List.range micDict.length).map (fun idx =>
        correctOne d.frequency_bins
          (d.calibration_factors.getD (ms.getD idx 0).toNat [])
          (column rows idx))).length := by
      rw [List.length_map, List.length_range]
      exact hcc
    rw [column_transposeSC _ rows.length c hcl
      (by rw [getD_map_range _ c _ [] hcc, correctOne_length, column_length])]
    rw [getD_map_range _ c _ [] hcc]

/-- Witness for the amended C7 on a one-channel, one-sample recording. -/
theorem apply_file_shape_witness :
    ((([[(5 : ℝ)]] : List (List ℝ)).headD []).length =
      ([("channel_1", some ((1 : ℕ) : ℚ))] : List (String × Option ℚ)).length ∧
     (∀ r ∈ ([[(5 : ℝ)]] : List (List ℝ)), r.length = 1) ∧
     ([("channel_1", some ((1 : ℕ) : ℚ))] :
       List (String × Option ℚ)).mapM (resolveMic 1) = Except.ok [0]) ∧
    (∃ out, apply_calibration_file (some ⟨[0], [[1]]⟩) [[(5 : ℝ)]] 1
        [("channel_1", some ((1 : ℕ) : ℚ))] = Except.ok out ∧
      out.length = 1 ∧
      (∀ r ∈ out, r.length = 1) ∧
      ∀ c, c < 1 →
        column out c = correctOne [(0 : ℝ)]
          ([[(1 : ℝ)]].getD (([(0 : ℤ)].getD c 0).toNat) [])
          (column [[(5 : ℝ)]] c)) := by
  have hres : ([("channel_1", some ((1 : ℕ) : ℚ))] :
      List (String × Option ℚ)).mapM (resolveMic 1) = Except.ok [0] := by
    have hresolve : resolveMic 1 ("channel_1", some ((1 : ℕ) : ℚ)) =
        Except.ok 0 := by
      have h := resolveMic_natCast 1 "channel_1" 1 (le_refl 1) (le_refl 1)
      simpa using h
    rw [List.mapM_cons, hresolve, List.mapM_nil]
    rfl
  have huni : ∀ r ∈ ([[(5 : ℝ)]] : List (List ℝ)), r.length = 1 := by
    intro r hr
    rcases List.mem_cons.mp hr with h | h
    · rw [h]; rfl
    · cases h
  refine ⟨⟨rfl, huni, hres⟩, ?_⟩
  have h := apply_file_shape ⟨[0], [[1]]⟩ [[(5 : ℝ)]] 1
    [("channel_1", some ((1 : ℕ) : ℚ))] [0] rfl huni hres
  exact h

/-- C7 counterexample: under the claim's [channel][sample] reading, the first
output row should be the corrected first input row; with the 2-by-2 input
[[1, 2], [3, 4]], the identity factor table [[1, 1], [1, 1]] over two bins
and the identity channel map, the code instead corrects the COLUMNS: the
accepted call returns first row [7/4, 3], not the corrected first input row
[3/2, 3/2] — the arrays are samples-by-channels, not channels-by-samples. -/
theorem apply_file_orientation_counterexample :
    ∃ out, apply_calibration_file
        (some ⟨[0, 1], [[1, 1], [1, 1]]⟩) [[(1 : ℝ), 2], [3, 4]] 2
        [("channel_1", some ((1 : ℕ) : ℚ)), ("channel_2", some ((2 : ℕ) : ℚ))] =
        Except.ok out ∧
      out.getD 0 [] ≠ correctOne [(0 : ℝ), 1] [1, 1] [(1 : ℝ), 2] := by
  have hresolve1 : resolveMic 2 ("channel_1", some ((1 : ℕ) : ℚ)) =
      Except.ok 0 := by
    have h := resolveMic_natCast 2 "channel_1" 1 (le_refl 1) (by norm_num)
    simpa using h
  have hresolve2 : resolveMic 2 ("channel_2", some ((2 : ℕ) : ℚ)) =
      Except.ok 1 := by
    have h := resolveMic_natCast 2 "channel_2" 2 (by norm_num) (le_refl 2)
    simpa using h
  have hres : ([("channel_1", some ((1 : ℕ) : ℚ)),
      ("channel_2", some ((2 : ℕ) : ℚ))] :
      List (String × Option ℚ)).mapM (resolveMic 2) = Except.ok [0, 1] := by
    rw [List.mapM_cons, hresolve1, List.mapM_cons, hresolve2, List.mapM_nil]
    rfl
  refine ⟨_, apply_file_ok ⟨[0, 1], [[1, 1], [1, 1]]⟩ [[(1 : ℝ), 2], [3, 4]] 2
    _ [0, 1] rfl hres, ?_⟩
  have hc0 : column [[(1 : ℝ), 2], [3, 4]] 0 = [1, 3] := rfl
  have hc1 : column [[(1 : ℝ), 2], [3, 4]] 1 = [2, 4] := rfl
  have hmap : ((List.range ([("channel_1", some ((1 : ℕ) : ℚ)),
      ("channel_2", some ((2 : ℕ) : ℚ))] :
        List (String × Option ℚ)).length).map (fun idx =>
      correctOne [(0 : ℝ), 1]
        ([[(1 : ℝ), 1], [1, 1]].getD (([(0 : ℤ), 1].getD idx 0).toNat) [])
        (column [[(1 : ℝ), 2], [3, 4]] idx))) =
      [correctOne [(0 : ℝ), 1] [1, 1] [(1 : ℝ), 3],
       correctOne [(0 : ℝ), 1] [1, 1] [(2 : ℝ), 4]] := rfl
  rw [hmap]
  have he1 : correctOne [(0 : ℝ), 1] [1, 1] [(1 : ℝ), 3] = [7 / 4, 9 / 4] := by
    rw [correctOne_two_bins 0 1 [(1 : ℝ), 3] rfl]
    norm_num
  have he2 : correctOne [(0 : ℝ), 1] [1, 1] [(2 : ℝ), 4] = [3, 3] := by
    rw [correctOne_two_bins 0 1 [(2 : ℝ), 4] rfl]
    norm_num
  have he3 : correctOne [(0 : ℝ), 1] [1, 1] [(1 : ℝ), 2] = [3 / 2, 3 / 2] := by
    rw [correctOne_two_bins 0 1 [(1 : ℝ), 2] rfl]
    norm_num
  rw [he1, he2, he3]
  have ht : transposeSC [[(7 : ℝ) / 4, 9 / 4], [3, 3]]
      ([[(1 : ℝ), 2], [3, 4]] : List (List ℝ)).length =
      [[7 / 4, 3], [9 / 4, 3]] := rfl
  rw [ht]
  have hg : ([[7 / 4, 3], [(9 : ℝ) / 4, 3]] : List (List ℝ)).getD 0 [] =
      [7 / 4, 3] := rfl
  rw [hg]
  norm_num

/-- C8 amended: apply_calibration_file raises the out-of-range ValueError
exactly on the int()-truncated microphone number: a channel entry whose
mic_number truncates to a value outside [1, n] aborts the call with that
error and no corrected recordings, provided every earlier channel entry
resolves (an earlier failure surfaces first, in loop order). A fractional
mic_number strictly outside [1, n] whose truncation lands inside [1, n] is
accepted instead; see the counterexample. -/
theorem apply_file_out_of_range (d : CalibrationData) (rows : List (List ℝ))
    (rate : ℝ) (micDict : List (String × Option ℚ)) (c : ℕ) (x : ℚ)
    (hshape : (rows.headD []).length = micDict.length)
    (hc : c < micDict.length)
    (hx : (micDict.getD c ("", none)).2 = some x)
    (hbad : ratTrunc x - 1 < 0 ∨
      (d.calibration_factors.length : ℤ) ≤ ratTrunc x - 1)
    (hprev : ∀ j, j < c → ∃ m, resolveMic d.calibration_factors.length
      (micDict.getD j ("", none)) = Except.ok m) :
    apply_calibration_file (some d) rows rate micDict =
      Except.error (CalError.outOfRange (ratTrunc x)) := by
  apply apply_file_error d rows rate micDict _ hshape
  have herr : resolveMic d.calibration_factors.length
      (micDict.getD c ("", none)) =
      Except.error (CalError.outOfRange (ratTrunc x)) := by
    simp only [resolveMic, hx]
    rw [if_pos hbad]
    have hval : ratTrunc x - 1 + 1 = ratTrunc x := by omega
    rw [hval]
  exact mapM_except_first_error _ micDict c hc ("", none) _ herr hprev

/-- Witness for the amended C8: mic number 99 with 4 calibrated microphones
raises the out-of-range error and returns nothing. -/
theorem apply_file_out_of_range_witness :
    ((([[(5 : ℝ)]] : List (List ℝ)).headD []).length =
        ([("channel_1", some ((99 : ℕ) : ℚ))] : List (String × Option ℚ)).length ∧
      (([("channel_1", some ((99 : ℕ) : ℚ))] :
        List (String × Option ℚ)).getD 0 ("", none)).2 = some ((99 : ℕ) : ℚ) ∧
      (ratTrunc ((99 : ℕ) : ℚ) - 1 < 0 ∨
        ((([[(1 : ℝ)], [1], [1], [1]] : List (List ℝ)).length : ℤ)) ≤
          ratTrunc ((99 : ℕ) : ℚ) - 1)) ∧
    apply_calibration_file
      (some ⟨[0], [[(1 : ℝ)], [1], [1], [1]]⟩) [[(5 : ℝ)]] 1
      [("channel_1", some ((99 : ℕ) : ℚ))] =
      Except.error (CalError.outOfRange (ratTrunc ((99 : ℕ) : ℚ))) := by
  have hbad : ratTrunc ((99 : ℕ) : ℚ) - 1 < 0 ∨
      ((([[(1 : ℝ)], [1], [1], [1]] : List (List ℝ)).length : ℤ)) ≤
        ratTrunc ((99 : ℕ) : ℚ) - 1 := by
    rw [ratTrunc_natCast]
    right
    norm_num
  refine ⟨⟨rfl, rfl, hbad⟩, ?_⟩
  exact apply_file_out_of_range ⟨[0], [[(1 : ℝ)], [1], [1], [1]]⟩ [[(5 : ℝ)]] 1
    [("channel_1", some ((99 : ℕ) : ℚ))] 0 ((99 : ℕ) : ℚ) rfl (by norm_num)
    rfl hbad (fun j hj => absurd hj (by omega))

/-- C8 counterexample: mic_number 3/2 lies outside [1, 1] — only one
microphone is calibrated — yet the call succeeds and returns corrected
recordings: int() truncates 3/2 to 1, which is in range, so no OutOfRange
error is raised. -/
theorem out_of_range_counterexample :
    ((1 : ℚ) < 3 / 2 ∧ (3 / 2 : ℚ) ≠ 1) ∧
    ∃ out, apply_calibration_file (some ⟨[0], [[1]]⟩) [[(5 : ℝ)]] 1
        [("channel_1", some (3 / 2 : ℚ))] = Except.ok out := by
  have hfloor : (⌊(3 / 2 : ℚ)⌋ : ℤ) = 1 := by
    rw [Int.floor_eq_iff]
    norm_num
  have htr : ratTrunc (3 / 2 : ℚ) = 1 := by
    rw [ratTrunc, if_pos (by norm_num), hfloor]
  have hresolve : resolveMic 1 ("channel_1", some (3 / 2 : ℚ)) =
      Except.ok 0 := by
    simp only [resolveMic]
    rw [htr]
    norm_num
  have hres : ([("channel_1", some (3 / 2 : ℚ))] :
      List (String × Option ℚ)).mapM (resolveMic 1) = Except.ok [0] := by
    rw [List.mapM_cons, hresolve, List.mapM_nil]
    rfl
  exact ⟨⟨by norm_num, by norm_num⟩,
    ⟨_, apply_file_ok ⟨[0], [[1]]⟩ [[(5 : ℝ)]] 1 _ [0] rfl hres⟩⟩

/-- C10: a channel-map entry with a non-integral mic_number x whose
truncation toward zero lies in [1, n] is not rejected as invalid:
apply_calibration_file silently converts it with int() and applies
correction row trunc(x) - 1. -/
theorem fractional_mic_number (d : CalibrationData) (rows : List (List ℝ))
    (rate : ℝ) (name : String) (x : ℚ)
    (hnonint : x ≠ ((ratTrunc x : ℤ) : ℚ))
    (hlo : 1 ≤ ratTrunc x)
    (hhi : ratTrunc x ≤ (d.calibration_factors.length : ℤ))
    (hshape : (rows.headD []).length = 1) :
    apply_calibration_file (some d) rows rate [(name, some x)] =
      Except.ok (transposeSC [correctOne d.frequency_bins
        (d.calibration_factors.getD (ratTrunc x - 1).toNat [])
        (column rows 0)] rows.length) := by
  have hresolve : resolveMic d.calibration_factors.length (name, some x) =
      Except.ok (ratTrunc x - 1) := by
    simp only [resolveMic]
    rw [if_neg (by omega)]
  have hres : ([(name, some x)] : List (String × Option ℚ)).mapM
      (resolveMic d.calibration_factors.length) =
      Except.ok [ratTrunc x - 1] := by
    rw [List.mapM_cons, hresolve, List.mapM_nil]
    rfl
  rw [apply_file_ok d rows rate [(name, some x)] [ratTrunc x - 1] hshape hres]
  rfl

/-- Witness for C10: mic_number 2.9 with three calibrated microphones is
accepted and row 1 (the second row) is applied. -/
theorem fractional_mic_number_witness :
    ((29 / 10 : ℚ) ≠ ((ratTrunc (29 / 10 : ℚ) : ℤ) : ℚ) ∧
      1 ≤ ratTrunc (29 / 10 : ℚ) ∧
      ratTrunc (29 / 10 : ℚ) ≤
        ((([[(1 : ℝ)], [1], [1]] : List (List ℝ)).length : ℤ))) ∧
    apply_calibration_file (some ⟨[0], [[(1 : ℝ)], [1], [1]]⟩) [[(5 : ℝ)]] 1
      [("channel_1", some (29 / 10 : ℚ))] =
      Except.ok (transposeSC [correctOne [(0 : ℝ)]
        ([[(1 : ℝ)], [1], [1]].getD (ratTrunc (29 / 10 : ℚ) - 1).toNat [])
        (column [[(5 : ℝ)]] 0)] ([[(5 : ℝ)]] : List (List ℝ)).length) := by
  have hfloor : (⌊(29 / 10 : ℚ)⌋ : ℤ) = 2 := by
    rw [Int.floor_eq_iff]
    norm_num
  have htr : ratTrunc (29 / 10 : ℚ) = 2 := by
    rw [ratTrunc, if_pos (by norm_num), hfloor]
  refine ⟨⟨by rw [htr]; norm_num, by rw [htr]; norm_num, by rw [htr]; norm_num⟩, ?_⟩
  exact fractional_mic_number ⟨[0], [[(1 : ℝ)], [1], [1]]⟩ [[(5 : ℝ)]] 1
    "channel_1" (29 / 10 : ℚ) (by rw [htr]; norm_num) (by rw [htr]; norm_num)
    (by rw [htr]; norm_num) rfl

end DroneAudio
